import Mathlib

/-!
Verification of the fbits float64 bit-manipulation library.

Float64 values are embedded as their 64-bit patterns (natural numbers below
2^64).  Go uint64 arithmetic is modelled with explicit `% 2 ^ 64`; the
floating-point operations used by the fast paths of `NextToZero` and
`NextFromZero` are modelled by exact rational arithmetic followed by
round-to-nearest, ties-to-even (`roundMag`).
-/

namespace Fbits

/-- Sign bit mask of an IEEE 754 binary64 bit pattern (Go constant `signbit = 1<<63`). -/
def signbit : ℕ := 1 <<< 63

/-- Bit pattern of positive infinity (Go constant `posInf = 0x7ff0000000000000`). -/
def posInf : ℕ := 0x7ff0000000000000

/-- Largest uint64 value (Go constant `maxUint64 = 1<<64 - 1`). -/
def maxUint64 : ℕ := 1 <<< 64 - 1

/-- Magnitude (sign-cleared) part of a 64-bit pattern. -/
def mag (u : ℕ) : ℕ := u % 2 ^ 63

/-- Sign bit (0 or 1) of a 64-bit pattern. -/
def sgn (u : ℕ) : ℕ := u / 2 ^ 63 % 2

/-- Value of a float64 magnitude pattern r (for 0 ≤ r ≤ posInf) as a rational:
subnormal patterns denote r * 2^-1074, normal ones (2^52 + mantissa) * 2^(e-1075),
and the posInf pattern itself gets the out-of-range value 2^1024. -/
def mval (r : ℕ) : ℚ :=
  if r < 2 ^ 52 then (r : ℚ) * (2 : ℚ) ^ (-1074 : ℤ)
  else ((r % 2 ^ 52 : ℕ) + 2 ^ 52) * (2 : ℚ) ^ (((r / 2 ^ 52 : ℕ) : ℤ) - 1075)

/-- Signed value of a finite float64 bit pattern. -/
def sval (u : ℕ) : ℚ := if u < 2 ^ 63 then mval (mag u) else -mval (mag u)

/-- Semantic value of a float64 pattern: a finite rational, a signed infinity,
or NaN. -/
inductive Val where
  | finite (q : ℚ)
  | inf (neg : Bool)
  | nan
deriving DecidableEq

/-- Interpret a 64-bit pattern as a semantic float64 value. -/
def toVal (u : ℕ) : Val :=
  if posInf < mag u then .nan
  else if mag u = posInf then .inf (decide (2 ^ 63 ≤ u))
  else .finite (sval u)

/-- IEEE 754 equality test on bit patterns: NaN compares unequal to everything,
the two zero patterns compare equal, infinities compare by sign. -/
def feq (a b : ℕ) : Bool :=
  match toVal a, toVal b with
  | .finite p, .finite q => decide (p = q)
  | .inf s, .inf t => s == t
  | _, _ => false

/-- IEEE 754 inequality test on bit patterns (Go `x != y`). -/
def fne (a b : ℕ) : Bool := !(feq a b)

/-- Round a rational to the nearest integer, ties to even. -/
def rneInt (q : ℚ) : ℤ :=
  let f := ⌊q⌋
  if q - f < 1 / 2 then f
  else if 1 / 2 < q - f then f + 1
  else if Even f then f else f + 1

/-- Fuel-bounded binary length of a natural number: the number of bits needed
to represent n, computed by structural recursion on the fuel. -/
def natSize : ℕ → ℕ → ℕ
  | 0, _ => 0
  | fuel + 1, n => if n = 0 then 0 else natSize fuel (n / 2) + 1

/-- Binary length of a natural number (n itself always suffices as fuel). -/
def sizeN (n : ℕ) : ℕ := natSize n n

/-- Floor of the base-2 logarithm of a positive rational, computed from the
binary lengths of numerator and denominator plus one comparison. -/
def ilog2 (q : ℚ) : ℤ :=
  let k : ℤ := (sizeN q.num.toNat : ℤ) - (sizeN q.den : ℤ)
  if q < (2 : ℚ) ^ k then k - 1 else k

/-- Encode a magnitude n * 2^(e-52) (with 0 < n ≤ 2^53, e ≥ -1022, and
n ≥ 2^52 unless e = -1022) as a float64 magnitude pattern, saturating to the
posInf pattern on overflow. -/
def encodeMag (n e : ℤ) : ℕ :=
  if n ≤ 0 then 0
  else
    let n2 : ℤ := if n = 2 ^ 53 then 2 ^ 52 else n
    let e2 : ℤ := if n = 2 ^ 53 then e + 1 else e
    if 1023 < e2 then posInf
    else if n2 < 2 ^ 52 then n2.toNat
    else (e2 + 1023).toNat * 2 ^ 52 + (n2 - 2 ^ 52).toNat

/-- Round a nonnegative rational to the nearest float64 magnitude pattern,
ties to even, saturating to the posInf pattern. -/
def roundMag (q : ℚ) : ℕ :=
  if q ≤ 0 then 0
  else encodeMag (rneInt (q / (2 : ℚ) ^ (max (ilog2 q) (-1022) - 52)))
    (max (ilog2 q) (-1022))

/-- Canonical quiet NaN pattern produced by invalid operations in the model. -/
def nanPat : ℕ := 0x7ff8000000000000

/-- Model of IEEE 754 binary64 multiplication on bit patterns
(round to nearest, ties to even). -/
def fmul (a b : ℕ) : ℕ :=
  let s := (sgn a + sgn b) % 2
  if posInf < mag a ∨ posInf < mag b then nanPat
  else if mag a = posInf ∨ mag b = posInf then
    if mag a = 0 ∨ mag b = 0 then nanPat
    else s * 2 ^ 63 + posInf
  else s * 2 ^ 63 + roundMag (mval (mag a) * mval (mag b))

/-- Model of IEEE 754 binary64 addition on bit patterns (round to nearest,
ties to even; exact zero results follow the IEEE sign rule for this mode). -/
def fadd (a b : ℕ) : ℕ :=
  if posInf < mag a ∨ posInf < mag b then nanPat
  else if mag a = posInf ∧ mag b = posInf then
    if sgn a = sgn b then sgn a * 2 ^ 63 + posInf else nanPat
  else if mag a = posInf then sgn a * 2 ^ 63 + posInf
  else if mag b = posInf then sgn b * 2 ^ 63 + posInf
  else
    let q := sval a + sval b
    if q = 0 then (if sgn a = 1 ∧ sgn b = 1 then signbit else 0)
    else if q < 0 then signbit + roundMag (-q)
    else roundMag q

/-- Go `k &^ signbit`: clear the sign bit of a 64-bit pattern. -/
def clearSign (u : ℕ) : ℕ := u &&& (signbit - 1)

/-- Embedding of Go `UlpsBetween` (src/floatbits.go): the distance between two
float64 patterns counted in ulps, saturating to maxUint64 when either operand
is NaN. -/
def UlpsBetween (x y : ℕ) : ℕ :=
  let signdiff := signbit ≤ x ^^^ y
  let k := clearSign x
  let n := clearSign y
  if posInf < k ∨ posInf < n then maxUint64
  else if signdiff then (n + k) % 2 ^ 64
  else if k < n then n - k
  else k - n

/-- Two's-complement reading of a 64-bit pattern (Go `int64(w)`). -/
def toInt64 (w : ℕ) : ℤ := if w < 2 ^ 63 then (w : ℤ) else (w : ℤ) - 2 ^ 64

/-- Wrapping 64-bit subtraction (Go uint64 `a - b`) for a, b < 2^64. -/
def wsub (a b : ℕ) : ℕ := (2 ^ 64 + a - b) % 2 ^ 64

/-- Embedding of Go `Adjacent`: the bit patterns differ by exactly one when
read as int64. -/
def Adjacent (x y : ℕ) : Bool :=
  let d := toInt64 (wsub x y)
  decide (d = 1) || decide (d = -1)

/-- Embedding of Go `Ulp`: the ulp of x as a (positive) float64 pattern;
Inf and NaN inputs return their own magnitude pattern. -/
def Ulp (x : ℕ) : ℕ :=
  let u := clearSign x
  let exp := u >>> 52
  if exp = 0x7ff then u
  else if 52 < exp then (exp - 52) <<< 52
  else if 1 < exp then 1 <<< (exp - 1)
  else 1

/-- Embedding of Go `LogUlp`: log2 of Ulp(x) derived from the exponent field. -/
def LogUlp (x : ℕ) : ℤ :=
  let exp : ℤ := ((clearSign x >>> 52 : ℕ) : ℤ)
  if exp = 0x7ff then 1024
  else if 0 < exp then exp - (1023 + 52)
  else -1074

/-- Embedding of Go `bits.Len64`: minimal number of bits needed to represent u. -/
def Len64 (u : ℕ) : ℕ := sizeN u

/-- Embedding of Go `Log2`: floor of the base-2 logarithm of abs(x). -/
def Log2 (x : ℕ) : ℤ :=
  let u := clearSign x
  let exp : ℤ := ((u >>> 52 : ℕ) : ℤ)
  if exp = 0 then (Len64 u : ℤ) - 1075
  else exp - 1023

/-- Embedding of Go `IsPowerOfTwo`. -/
def IsPowerOfTwo (x : ℕ) : Bool :=
  let s := (x <<< 12) % 2 ^ 64
  if 0 < s &&& (s - 1) then false
  else
    let e := x >>> 52
    (decide (0 < s) != decide (0 < e)) && decide (e < 0x7ff)

/-- Embedding of Go `IsPowerOfTwoMinimal`. -/
def IsPowerOfTwoMinimal (x : ℕ) : Bool :=
  let e := x >>> 52
  let s := (x <<< 12) % 2 ^ 64
  decide (s &&& (s - 1) = 0) && (decide (0 < s) != decide (0 < e)) && decide (e < 0x7ff)

/-- Embedding of Go `IsPowerOfTwoJava`. -/
def IsPowerOfTwoJava (x : ℕ) : Bool :=
  let exp := x >>> 52
  let bits1 := x &&& (1 <<< 53 - 1)
  let bits2 := if 0 < exp then bits1 ||| 1 <<< 52 else bits1
  decide (bits2 &&& (bits2 - 1) = 0) && decide (0 < bits2) && decide (exp < 0x7ff)

/-- Embedding of Go `IsInf`. -/
def IsInf (x : ℕ) : Bool := decide (clearSign x = posInf)

/-- Embedding of Go `IsFinite`. -/
def IsFinite (x : ℕ) : Bool := decide (clearSign x < posInf)

/-- Embedding of Go `IsNaN` (`x != x`, IEEE unordered comparison). -/
def IsNaN (x : ℕ) : Bool := fne x x

/-- Embedding of Go `NextToZeroFP`: x * (1 - 0x1p-53); the constant
1 - 2^-53 is the float64 pattern 0x3FEFFFFFFFFFFFFF. -/
def NextToZeroFP (x : ℕ) : ℕ := fmul x 0x3FEFFFFFFFFFFFFF

/-- Embedding of Go `NextFromZeroFP`: x + x * 0x1.25p-53; the constant
0x1.25p-53 = 293 * 2^-61 is the float64 pattern 0x3CA2500000000000. -/
def NextFromZeroFP (x : ℕ) : ℕ := fadd x (fmul x 0x3CA2500000000000)

/-- Embedding of Go `NextToZero`: next float64 after x towards zero. -/
def NextToZero (x : ℕ) : ℕ :=
  let y := NextToZeroFP x
  if fne y x then y
  else if posInf ≤ clearSign x ∨ feq x 0 then x
  else wsub x 1

/-- Embedding of Go `NextFromZero`: next float64 after x away from zero. -/
def NextFromZero (x : ℕ) : ℕ :=
  let y := NextFromZeroFP x
  if fne x y then y
  else if posInf ≤ clearSign x then x
  else (x + 1) % 2 ^ 64

/-- Embedding of Go `splitmix`: one step of SplitMix64, returning the output
together with the updated state (the Go version mutates the state through a
pointer). -/
def splitmix (state : ℕ) : ℕ × ℕ :=
  let s := (state + 0x9e3779b97f4a7c15) % 2 ^ 64
  let z1 := ((s ^^^ s >>> 30) * 0xbf58476d1ce4e5b9) % 2 ^ 64
  let z2 := ((z1 ^^^ z1 >>> 27) * 0x94d049bb133111eb) % 2 ^ 64
  (z2 ^^^ z2 >>> 31, s)

/-- Embedding of Go `RandomFloat64` with explicit fuel bounding the resample
loop: none when the fuel runs out, otherwise the drawn pattern (used verbatim
as float64 bits) and the updated generator state.  The loop redraws exactly
when the drawn pattern has the all-ones exponent field. -/
def RandomFloat64 : ℕ → ℕ → Option (ℕ × ℕ)
  | 0, _ => none
  | fuel + 1, state =>
    let p := splitmix state
    if p.1 &&& (0x7ff <<< 52) = 0x7ff <<< 52 then RandomFloat64 fuel p.2
    else some (p.1, p.2)

theorem and_two_pow_sub_one (x n : ℕ) : x &&& (2 ^ n - 1) = x % 2 ^ n := by
  apply Nat.eq_of_testBit_eq
  intro i
  rw [Nat.testBit_land, Nat.testBit_two_pow_sub_one, Nat.testBit_mod_two_pow,
    Bool.and_comm]

theorem and_shift_mask (x k n : ℕ) :
    x &&& ((2 ^ n - 1) <<< k) = (x / 2 ^ k % 2 ^ n) <<< k := by
  apply Nat.eq_of_testBit_eq
  intro i
  by_cases hik : k ≤ i
  · rw [Nat.testBit_land, Nat.testBit_shiftLeft, Nat.testBit_shiftLeft,
      Nat.testBit_two_pow_sub_one, Nat.testBit_mod_two_pow,
      ← Nat.shiftRight_eq_div_pow, Nat.testBit_shiftRight]
    have h2 : k + (i - k) = i := by omega
    rw [h2]
    simp only [ge_iff_le, hik, decide_eq_true_eq, if_true]
    cases x.testBit i <;> cases hd : decide (i - k < n) <;> simp_all
  · rw [Nat.testBit_land, Nat.testBit_shiftLeft, Nat.testBit_shiftLeft]
    simp [hik]

theorem bit_false_eq (y : ℕ) : Nat.bit false y = 2 * y := by
  simp [Nat.bit]

theorem bit_true_eq (y : ℕ) : Nat.bit true y = 2 * y + 1 := by
  simp [Nat.bit]

theorem land_pred_eq_zero_iff (x : ℕ) :
    x &&& (x - 1) = 0 ↔ x = 0 ∨ ∃ k, x = 2 ^ k := by
  induction x using Nat.strong_induction_on with
  | _ x ih =>
    rcases Nat.eq_zero_or_pos x with hx | hx
    · subst hx; simp
    rcases Nat.even_or_odd x with he | ho
    · obtain ⟨y, hy⟩ := he
      have hxy : x = 2 * y := by omega
      have hy1 : 1 ≤ y := by omega
      have key : x &&& (x - 1) = 2 * (y &&& (y - 1)) := by
        have h1 : x = Nat.bit false y := by rw [bit_false_eq]; omega
        have h2 : x - 1 = Nat.bit true (y - 1) := by rw [bit_true_eq]; omega
        rw [h2, h1, Nat.land_bit]
        simp [bit_false_eq]
      rw [key]
      constructor
      · intro h
        have h0 : y &&& (y - 1) = 0 := by omega
        rcases (ih y (by omega)).mp h0 with h1 | ⟨k, hk⟩
        · omega
        · right; exact ⟨k + 1, by rw [hxy, hk]; ring⟩
      · rintro (h | ⟨k, hk⟩)
        · omega
        · cases k with
          | zero => rw [hk] at hxy; omega
          | succ j =>
            have hyj : y = 2 ^ j := by
              have : 2 * y = 2 * 2 ^ j := by
                rw [← hxy, hk]; ring
              omega
            have h0 : y &&& (y - 1) = 0 := (ih y (by omega)).mpr (Or.inr ⟨j, hyj⟩)
            omega
    · obtain ⟨y, hy⟩ := ho
      rcases Nat.eq_zero_or_pos y with hy0 | hy1
      · subst hy0
        simp at hy
        subst hy
        constructor
        · intro h; exact Or.inr ⟨0, rfl⟩
        · intro h; rfl
      · have key : x &&& (x - 1) = 2 * y := by
          have h1 : x = Nat.bit true y := by rw [bit_true_eq]; omega
          have h2 : x - 1 = Nat.bit false y := by rw [bit_false_eq]; omega
          rw [h2, h1, Nat.land_bit]
          simp [bit_false_eq]
        rw [key]
        constructor
        · intro h; omega
        · rintro (h | ⟨k, hk⟩)
          · omega
          · exfalso
            cases k with
            | zero => omega
            | succ j =>
              have : x % 2 = 0 := by
                rw [hk, Nat.pow_succ]
                omega
              omega

theorem lor_two_pow_add (n m : ℕ) (h : m < 2 ^ n) : m ||| 2 ^ n = 2 ^ n + m := by
  apply Nat.eq_of_testBit_eq
  intro i
  rw [Nat.testBit_lor]
  have h2 : (2 ^ n + m).testBit i = if i < n then m.testBit i else Nat.testBit 1 (i - n) := by
    have h3 := Nat.testBit_mul_pow_two_add 1 h i
    rw [Nat.mul_one] at h3
    exact h3
  rw [h2]
  rcases Nat.lt_trichotomy i n with hin | hin | hin
  · have ht : (2 ^ n : ℕ).testBit i = false := by
      rw [Nat.testBit_two_pow]
      simp; omega
    simp [hin, ht]
  · subst hin
    have ht : (2 ^ i : ℕ).testBit i = true := by
      rw [Nat.testBit_two_pow]; simp
    have hm : m.testBit i = false := Nat.testBit_eq_false_of_lt h
    simp [ht, hm]
  · have ht : (2 ^ n : ℕ).testBit i = false := by
      rw [Nat.testBit_two_pow]
      simp; omega
    have hm : m.testBit i = false := Nat.testBit_eq_false_of_lt
      (lt_of_lt_of_le h (Nat.pow_le_pow_right (by omega) (by omega)))
    have h1t : Nat.testBit 1 (i - n) = false := by
      apply Nat.testBit_eq_false_of_lt
      have : 0 < i - n := by omega
      calc (1 : ℕ) < 2 ^ 1 := by norm_num
      _ ≤ 2 ^ (i - n) := Nat.pow_le_pow_right (by omega) (by omega)
    simp [ht, hm, if_neg (by omega : ¬ i < n), h1t]

theorem lor_two_pow_self_add (n m : ℕ) (h : m < 2 ^ n) :
    (2 ^ n + m) ||| 2 ^ n = 2 ^ n + m := by
  apply Nat.eq_of_testBit_eq
  intro i
  rw [Nat.testBit_lor]
  by_cases hin : i = n
  · subst hin
    have ht : (2 ^ i + m).testBit i = true := by
      have h3 := Nat.testBit_mul_pow_two_add 1 h i
      rw [Nat.mul_one] at h3
      rw [h3]
      simp [Nat.testBit_zero]
    simp [ht]
  · have ht : (2 ^ n : ℕ).testBit i = false := by
      rw [Nat.testBit_two_pow]
      simp
      omega
    simp [ht]


theorem signbit_eq : signbit = 2 ^ 63 := by decide

theorem maxUint64_eq : maxUint64 = 2 ^ 64 - 1 := by decide

theorem mag_lt (u : ℕ) : mag u < 2 ^ 63 := Nat.mod_lt _ (by norm_num)

theorem clearSign_eq_mag (u : ℕ) : clearSign u = mag u := by
  have h : signbit - 1 = 2 ^ 63 - 1 := by decide
  rw [clearSign, h, and_two_pow_sub_one, mag]

theorem mval_nonneg (r : ℕ) : 0 ≤ mval r := by
  unfold mval
  split <;> positivity

theorem mval_pos (r : ℕ) (h : 0 < r) : 0 < mval r := by
  unfold mval
  split
  · have hr : (0 : ℚ) < (r : ℚ) := by exact_mod_cast h
    positivity
  · positivity

theorem sval_small (u : ℕ) (h : u < 2 ^ 63) : sval u = mval u := by
  unfold sval mag
  rw [if_pos h, Nat.mod_eq_of_lt h]

theorem feq_self (x : ℕ) : feq x x = !(decide (posInf < mag x)) := by
  unfold feq toVal
  by_cases h : posInf < mag x
  · simp [h]
  · by_cases h2 : mag x = posInf
    · simp [h, h2]
    · simp [h, h2]

theorem isNaN_iff (x : ℕ) : IsNaN x = true ↔ posInf < mag x := by
  unfold IsNaN fne
  rw [feq_self]
  by_cases h : posInf < mag x <;> simp [h]

/-- C3, counterexample: the code returns 2^64 - 2^53 (the Go comment value
maxUint64 - 2^53 + 1), not 2^64 - 2^53 + 1, for the distance between the
two infinities. -/
theorem c3_counterexample :
    UlpsBetween (signbit + posInf) posInf ≠ 2 ^ 64 - 2 ^ 53 + 1 := by decide

/-- C3 (amended): UlpsBetween between opposite-sign infinities is
2^64 - 2^53 = maxUint64 - 2^53 + 1, and UlpsBetween between an infinity and
the max-magnitude finite value of the same sign is 1. -/
theorem c3_infinity_distances :
    UlpsBetween (signbit + posInf) posInf = 2 ^ 64 - 2 ^ 53 ∧
    UlpsBetween posInf (signbit + posInf) = 2 ^ 64 - 2 ^ 53 ∧
    2 ^ 64 - 2 ^ 53 = maxUint64 - 2 ^ 53 + 1 ∧
    UlpsBetween posInf (posInf - 1) = 1 ∧
    UlpsBetween (posInf - 1) posInf = 1 ∧
    UlpsBetween (signbit + posInf) (signbit + posInf - 1) = 1 ∧
    UlpsBetween (signbit + posInf - 1) (signbit + posInf) = 1 := by decide

/-- C4: at the signed-zero boundary, UlpsBetween(-0, 0) = 0 and
Adjacent(-0, 0) = false, while Adjacent(0, -2^-1074) and Adjacent(-0, 2^-1074)
are false even though UlpsBetween returns 1 for those two pairs. -/
theorem c4_signed_zero_boundary :
    UlpsBetween signbit 0 = 0 ∧ Adjacent signbit 0 = false ∧
    Adjacent 0 (signbit + 1) = false ∧ Adjacent signbit 1 = false ∧
    UlpsBetween 0 (signbit + 1) = 1 ∧ UlpsBetween signbit 1 = 1 := by decide

/-- C6: when an operand is NaN (in either position), UlpsBetween saturates to
the maximum distance 2^64 - 1. -/
theorem c6_ulpsBetween_nan (x y : ℕ) (hnan : IsNaN x = true) :
    UlpsBetween x y = 2 ^ 64 - 1 ∧ UlpsBetween y x = 2 ^ 64 - 1 := by
  have hx : posInf < clearSign x := by
    rw [clearSign_eq_mag]; exact (isNaN_iff x).mp hnan
  constructor
  · unfold UlpsBetween
    rw [if_pos (Or.inl hx)]
    decide
  · unfold UlpsBetween
    rw [if_pos (Or.inr hx)]
    decide

/-- C6 witness at a concrete NaN operand. -/
theorem c6_ulpsBetween_nan_witness :
    IsNaN 0x7ff0000000000001 = true ∧
    UlpsBetween 0x7ff0000000000001 0 = 2 ^ 64 - 1 ∧
    UlpsBetween 0 0x7ff0000000000001 = 2 ^ 64 - 1 :=
  ⟨by decide, c6_ulpsBetween_nan 0x7ff0000000000001 0 (by decide)⟩

/-- C10: on every bit pattern exactly one of IsFinite, IsInf, IsNaN is true,
and the comparison-based IsNaN holds exactly when the sign-cleared pattern
strictly exceeds the posInf pattern. -/
theorem c10_classifier_partition (u : ℕ) :
    ((IsFinite u = true ∧ IsInf u = false ∧ IsNaN u = false) ∨
     (IsFinite u = false ∧ IsInf u = true ∧ IsNaN u = false) ∨
     (IsFinite u = false ∧ IsInf u = false ∧ IsNaN u = true)) ∧
    (IsNaN u = true ↔ posInf < clearSign u) := by
  have hm := clearSign_eq_mag u
  have hn := isNaN_iff u
  constructor
  · rcases lt_trichotomy (mag u) posInf with h | h | h
    · left
      refine ⟨?_, ?_, ?_⟩
      · simp [IsFinite, hm, h]
      · simp [IsInf, hm]; omega
      · rcases Bool.eq_false_or_eq_true (IsNaN u) with hb | hb
        · exact absurd ((isNaN_iff u).mp hb) (by omega)
        · exact hb
    · right; left
      refine ⟨?_, ?_, ?_⟩
      · simp [IsFinite, hm]; omega
      · simp [IsInf, hm, h]
      · rcases Bool.eq_false_or_eq_true (IsNaN u) with hb | hb
        · exact absurd ((isNaN_iff u).mp hb) (by omega)
        · exact hb
    · right; right
      refine ⟨?_, ?_, ?_⟩
      · simp [IsFinite, hm]; omega
      · simp [IsInf, hm]; omega
      · exact hn.mpr h
  · rw [hm]; exact hn


theorem natSize_correct : ∀ fuel n : ℕ, 0 < n → n ≤ fuel →
    2 ^ (natSize fuel n - 1) ≤ n ∧ n < 2 ^ natSize fuel n := by
  intro fuel
  induction fuel with
  | zero => intro n h1 h2; omega
  | succ f ih =>
    intro n h1 h2
    rw [natSize, if_neg (by omega)]
    by_cases hn : n = 1
    · subst hn
      have hz : natSize f (1 / 2) = 0 := by
        cases f <;> simp [natSize]
      rw [hz]
      norm_num
    · have hd1 : 0 < n / 2 := by omega
      have hd2 : n / 2 ≤ f := by omega
      obtain ⟨ha, hb⟩ := ih (n / 2) hd1 hd2
      have hs1 : 1 ≤ natSize f (n / 2) := by
        by_contra hc
        have h0 : natSize f (n / 2) = 0 := by omega
        rw [h0] at hb
        omega
      have hseq : natSize f (n / 2) - 1 + 1 = natSize f (n / 2) := by omega
      have hB : 2 ^ natSize f (n / 2) = 2 * 2 ^ (natSize f (n / 2) - 1) := by
        calc 2 ^ natSize f (n / 2) = 2 ^ (natSize f (n / 2) - 1 + 1) := by rw [hseq]
        _ = 2 ^ (natSize f (n / 2) - 1) * 2 := pow_succ 2 _
        _ = 2 * 2 ^ (natSize f (n / 2) - 1) := by ring
      constructor
      · simp only [Nat.add_sub_cancel]
        omega
      · rw [pow_succ]
        omega

theorem sizeN_correct (n : ℕ) (h : 0 < n) :
    2 ^ (sizeN n - 1) ≤ n ∧ n < 2 ^ sizeN n :=
  natSize_correct n n h le_rfl

theorem xor_mod_shift_lt (a k : ℕ) : a % 2 ^ 64 ^^^ (a % 2 ^ 64) >>> k < 2 ^ 64 := by
  apply Nat.xor_lt_two_pow (Nat.mod_lt _ (by norm_num))
  have h1 : (a % 2 ^ 64) >>> k ≤ a % 2 ^ 64 := by
    rw [Nat.shiftRight_eq_div_pow]
    exact Nat.div_le_self _ _
  exact lt_of_le_of_lt h1 (Nat.mod_lt _ (by norm_num))

theorem splitmix_fst_lt (s : ℕ) : (splitmix s).1 < 2 ^ 64 := by
  unfold splitmix
  exact xor_mod_shift_lt _ 31

theorem mask_all_ones (u : ℕ) (hu : u < 2 ^ 64) (h : posInf ≤ mag u) :
    u &&& (0x7ff <<< 52) = 0x7ff <<< 52 := by
  have hm : (0x7ff : ℕ) <<< 52 = (2 ^ 11 - 1) <<< 52 := by decide
  rw [hm, and_shift_mask]
  have hmod : u / 2 ^ 52 % 2 ^ 11 = 2 ^ 11 - 1 := by
    have h2 : (0x7ff0000000000000 : ℕ) ≤ u % 2 ^ 63 := h
    omega
  rw [hmod]

/-- C8: whenever the fuel-bounded RandomFloat64 returns, the drawn pattern
is finite (never Inf or NaN); the value returned is the drawn 64-bit pattern
itself and the loop redrew exactly on the all-ones exponent field. -/
theorem c8_randomFloat64_isFinite (fuel s u s2 : ℕ)
    (h : RandomFloat64 fuel s = some (u, s2)) : IsFinite u = true := by
  induction fuel generalizing s with
  | zero => simp [RandomFloat64] at h
  | succ f ih =>
    rw [RandomFloat64] at h
    by_cases hc : (splitmix s).1 &&& (0x7ff <<< 52) = 0x7ff <<< 52
    · rw [if_pos hc] at h
      exact ih (splitmix s).2 h
    · rw [if_neg hc] at h
      have h2 := Option.some.inj h
      have hu : (splitmix s).1 = u := congrArg Prod.fst h2
      rw [← hu]
      unfold IsFinite
      rw [clearSign_eq_mag]
      simp only [decide_eq_true_iff]
      by_contra hcon
      exact hc (mask_all_ones _ (splitmix_fst_lt s) (by omega))

/-- C8 witness: a concrete run that returns after one draw. -/
theorem c8_randomFloat64_isFinite_witness :
    RandomFloat64 1 0 = some (16294208416658607535, 11400714819323198485) ∧
    IsFinite 16294208416658607535 = true :=
  ⟨by decide, c8_randomFloat64_isFinite 1 0 16294208416658607535 11400714819323198485
    (by decide)⟩


theorem shift12_eq (u : ℕ) (hu : u < 2 ^ 64) :
    (u <<< 12) % 2 ^ 64 = (u % 2 ^ 52) * 2 ^ 12 := by
  rw [Nat.shiftLeft_eq]
  omega

theorem mul_two_pow_eq_two_pow (m k j : ℕ) (h : m * 2 ^ k = 2 ^ j) :
    m = 2 ^ (j - k) := by
  have hm : 0 < m := by
    rcases Nat.eq_zero_or_pos m with h0 | h0
    · exfalso
      rw [h0] at h
      have hj : (0:ℕ) < 2 ^ j := by positivity
      omega
    · exact h0
  have hkj : k ≤ j := by
    by_contra hc
    have h1 : (2:ℕ) ^ k ≤ m * 2 ^ k := Nat.le_mul_of_pos_left _ hm
    have h2 : (2:ℕ) ^ j < 2 ^ k := Nat.pow_lt_pow_right (by norm_num) (by omega)
    omega
  have hj : (2:ℕ) ^ j = 2 ^ (j - k) * 2 ^ k := by
    rw [← pow_add]
    congr 1
    omega
  rw [hj] at h
  exact Nat.eq_of_mul_eq_mul_right (by positivity) h

theorem two_pow_52_add_eq_pow (m k : ℕ) (hm : m < 2 ^ 52) (h : 2 ^ 52 + m = 2 ^ k) :
    m = 0 := by
  have hk1 : 52 ≤ k := by
    by_contra hc
    have : (2:ℕ) ^ k ≤ 2 ^ 51 := Nat.pow_le_pow_right (by norm_num) (by omega)
    omega
  have hk2 : k < 53 := by
    by_contra hc
    have : (2:ℕ) ^ 53 ≤ 2 ^ k := Nat.pow_le_pow_right (by norm_num) (by omega)
    omega
  have hk : k = 52 := by omega
  rw [hk] at h
  omega

theorem isPowerOfTwo_iff (u : ℕ) (hu : u < 2 ^ 64) :
    IsPowerOfTwo u = true ↔
      ((0 < u / 2 ^ 52 ∧ u / 2 ^ 52 < 2047 ∧ u % 2 ^ 52 = 0) ∨
       (u / 2 ^ 52 = 0 ∧ ∃ j, u % 2 ^ 52 = 2 ^ j)) := by
  unfold IsPowerOfTwo
  rw [Nat.shiftRight_eq_div_pow, shift12_eq u hu]
  by_cases h : 0 < (u % 2 ^ 52) * 2 ^ 12 &&& ((u % 2 ^ 52) * 2 ^ 12 - 1)
  · rw [if_pos h]
    constructor
    · intro hfalse; exact absurd hfalse (by simp)
    · rintro (⟨h1, h2, h3⟩ | ⟨h1, j, h2⟩)
      · exfalso
        rw [h3] at h
        simp at h
      · exfalso
        have hs : (u % 2 ^ 52) * 2 ^ 12 = 2 ^ (j + 12) := by rw [h2, pow_add]
        have h0 : (u % 2 ^ 52) * 2 ^ 12 &&& ((u % 2 ^ 52) * 2 ^ 12 - 1) = 0 :=
          (land_pred_eq_zero_iff _).mpr (Or.inr ⟨j + 12, hs⟩)
        omega
  · rw [if_neg h]
    have hchar := (land_pred_eq_zero_iff ((u % 2 ^ 52) * 2 ^ 12)).mp (by omega)
    simp only [Bool.and_eq_true, bne_iff_ne, decide_eq_true_iff, ne_eq]
    constructor
    · rintro ⟨hne, hlt⟩
      by_cases hm : 0 < u % 2 ^ 52
      · have hs : 0 < (u % 2 ^ 52) * 2 ^ 12 := by positivity
        have he : ¬ 0 < u / 2 ^ 52 := by
          intro he2
          exact hne (by
            simp only [decide_eq_decide]
            exact ⟨fun h3 => he2, fun h3 => hs⟩)
        rcases hchar with h0 | ⟨k, hk⟩
        · omega
        · right
          refine ⟨by omega, k - 12, mul_two_pow_eq_two_pow _ _ _ hk⟩
      · left
        have hs : (u % 2 ^ 52) * 2 ^ 12 = 0 := by omega
        have he : 0 < u / 2 ^ 52 := by
          by_contra he2
          exact hne (by simp [hs]; omega)
        exact ⟨he, by omega, by omega⟩
    · rintro (⟨h1, h2, h3⟩ | ⟨h1, j, h2⟩)
      · refine ⟨?_, by omega⟩
        simp [h3]
        omega
      · refine ⟨?_, by omega⟩
        have hs : 0 < (u % 2 ^ 52) * 2 ^ 12 := by
          rw [h2]; positivity
        simp [hs]
        omega

theorem isPowerOfTwoMinimal_eq (u : ℕ) : IsPowerOfTwoMinimal u = IsPowerOfTwo u := by
  unfold IsPowerOfTwo IsPowerOfTwoMinimal
  dsimp only
  generalize ((u <<< 12) % 2 ^ 64) = s
  generalize (u >>> 52) = e
  by_cases h : 0 < s &&& (s - 1)
  · rw [if_pos h]
    have hne : decide (s &&& (s - 1) = 0) = false := by
      simp only [decide_eq_false_iff_not]
      omega
    rw [hne]
    simp only [Bool.false_and]
  · rw [if_neg h]
    have heq : decide (s &&& (s - 1) = 0) = true := by
      simp only [decide_eq_true_iff]
      omega
    rw [heq]
    simp only [Bool.true_and]

theorem isPowerOfTwoJava_iff (u : ℕ) (hu : u < 2 ^ 64) :
    IsPowerOfTwoJava u = true ↔
      ((0 < u / 2 ^ 52 ∧ u / 2 ^ 52 < 2047 ∧ u % 2 ^ 52 = 0) ∨
       (u / 2 ^ 52 = 0 ∧ ∃ j, u % 2 ^ 52 = 2 ^ j)) := by
  unfold IsPowerOfTwoJava
  rw [Nat.shiftRight_eq_div_pow]
  have hmask : u &&& (1 <<< 53 - 1) = u % 2 ^ 53 := by
    have h1 : (1 : ℕ) <<< 53 - 1 = 2 ^ 53 - 1 := by decide
    rw [h1, and_two_pow_sub_one]
  rw [hmask]
  simp only [Bool.and_eq_true, decide_eq_true_iff]
  by_cases he : 0 < u / 2 ^ 52
  · rw [if_pos he]
    have hb2 : u % 2 ^ 53 ||| 1 <<< 52 = 2 ^ 52 + u % 2 ^ 52 := by
      have hs : (1 : ℕ) <<< 52 = 2 ^ 52 := by decide
      rw [hs]
      rcases Nat.mod_two_eq_zero_or_one (u / 2 ^ 52) with hp | hp
      · have hm : u % 2 ^ 53 = u % 2 ^ 52 := by omega
        rw [hm]
        exact lor_two_pow_add 52 _ (Nat.mod_lt _ (by norm_num))
      · have hm : u % 2 ^ 53 = 2 ^ 52 + u % 2 ^ 52 := by omega
        rw [hm]
        exact lor_two_pow_self_add 52 _ (Nat.mod_lt _ (by norm_num))
    rw [hb2]
    constructor
    · rintro ⟨⟨hland, hpos⟩, hlt⟩
      left
      refine ⟨he, hlt, ?_⟩
      rcases (land_pred_eq_zero_iff _).mp hland with h0 | ⟨k, hk⟩
      · omega
      · exact two_pow_52_add_eq_pow _ k (Nat.mod_lt _ (by norm_num)) hk
    · rintro (⟨h1, h2, h3⟩ | ⟨h1, j, h2⟩)
      · refine ⟨⟨?_, by omega⟩, h2⟩
        rw [h3]
        exact (land_pred_eq_zero_iff _).mpr (Or.inr ⟨52, by norm_num⟩)
      · omega
  · rw [if_neg he]
    have hm : u % 2 ^ 53 = u % 2 ^ 52 := by omega
    rw [hm]
    constructor
    · rintro ⟨⟨hland, hpos⟩, hlt⟩
      right
      refine ⟨by omega, ?_⟩
      rcases (land_pred_eq_zero_iff _).mp hland with h0 | ⟨k, hk⟩
      · omega
      · exact ⟨k, hk⟩
    · rintro (⟨h1, h2, h3⟩ | ⟨h1, j, h2⟩)
      · omega
      · refine ⟨⟨(land_pred_eq_zero_iff _).mpr (Or.inr ⟨j, h2⟩), ?_⟩, by omega⟩
        rw [h2]
        positivity

/-- C9: the three power-of-two predicates agree on every 64-bit pattern. -/
theorem c9_power_of_two_agree (u : ℕ) (hu : u < 2 ^ 64) :
    IsPowerOfTwo u = IsPowerOfTwoMinimal u ∧
    IsPowerOfTwoMinimal u = IsPowerOfTwoJava u := by
  have h1 := isPowerOfTwoMinimal_eq u
  have h2 : IsPowerOfTwo u = IsPowerOfTwoJava u :=
    Bool.coe_iff_coe.mp ((isPowerOfTwo_iff u hu).trans (isPowerOfTwoJava_iff u hu).symm)
  rw [h1]
  exact ⟨rfl, h2⟩

/-- C9 witness at the pattern of 1.0. -/
theorem c9_power_of_two_agree_witness :
    0x3ff0000000000000 < 2 ^ 64 ∧
    (IsPowerOfTwo 0x3ff0000000000000 = IsPowerOfTwoMinimal 0x3ff0000000000000 ∧
     IsPowerOfTwoMinimal 0x3ff0000000000000 = IsPowerOfTwoJava 0x3ff0000000000000) :=
  ⟨by decide, c9_power_of_two_agree 0x3ff0000000000000 (by decide)⟩


theorem posInf_val : posInf = 0x7ff0000000000000 := rfl

theorem mval_normal_pattern (a : ℕ) (h1 : 1 ≤ a) (h2 : a ≤ 2046) :
    mval (a * 2 ^ 52) = (2 : ℚ) ^ ((a : ℤ) + 52 - 1075) := by
  unfold mval
  rw [if_neg (by omega)]
  have hmod : a * 2 ^ 52 % 2 ^ 52 = 0 := by omega
  have hdiv : a * 2 ^ 52 / 2 ^ 52 = a := by omega
  rw [hmod, hdiv]
  simp only [Nat.cast_zero, zero_add]
  rw [← zpow_natCast (2 : ℚ) 52, ← zpow_add₀ (two_ne_zero)]
  congr 1
  omega

theorem mval_small (p : ℕ) (h : p < 2 ^ 52) :
    mval p = (p : ℚ) * (2 : ℚ) ^ (-1074 : ℤ) := by
  unfold mval
  rw [if_pos h]

theorem mval_two_pow_small (j : ℕ) (h : j ≤ 51) :
    mval (2 ^ j) = (2 : ℚ) ^ ((j : ℤ) - 1074) := by
  have hc : ((2 ^ j : ℕ) : ℚ) = (2 : ℚ) ^ (j : ℤ) := by
    push_cast
    rw [zpow_natCast]
  calc mval (2 ^ j) = ((2 ^ j : ℕ) : ℚ) * (2 : ℚ) ^ (-1074 : ℤ) :=
        mval_small _ (Nat.pow_lt_pow_right (by norm_num) (by omega))
  _ = (2 : ℚ) ^ (j : ℤ) * (2 : ℚ) ^ (-1074 : ℤ) := by rw [hc]
  _ = (2 : ℚ) ^ ((j : ℤ) + -1074) := (zpow_add₀ (two_ne_zero) _ _).symm
  _ = (2 : ℚ) ^ ((j : ℤ) - 1074) := by rw [sub_eq_add_neg]

theorem toVal_finite (p : ℕ) (h : p < posInf) : toVal p = .finite (mval p) := by
  unfold toVal
  have hlt : p < 2 ^ 63 := by rw [posInf_val] at h; omega
  have hm : mag p = p := Nat.mod_eq_of_lt hlt
  rw [hm, if_neg (by omega), if_neg (by omega), sval_small p hlt]

/-- C7: for every finite pattern, Ulp returns a positive float64 value whose
pattern satisfies IsPowerOfTwo. -/
theorem c7_ulp_is_power_of_two (u : ℕ) (hu : u < 2 ^ 64) (hfin : IsFinite u = true) :
    0 < sval (Ulp u) ∧ IsPowerOfTwo (Ulp u) = true := by
  have hfin2 : mag u < posInf := by
    unfold IsFinite at hfin
    rw [clearSign_eq_mag] at hfin
    exact of_decide_eq_true hfin
  have he : mag u / 2 ^ 52 ≤ 2046 := by
    rw [posInf_val] at hfin2
    omega
  unfold Ulp
  dsimp only
  rw [clearSign_eq_mag, Nat.shiftRight_eq_div_pow]
  rw [if_neg (by omega)]
  by_cases h52 : 52 < mag u / 2 ^ 52
  · rw [if_pos h52, Nat.shiftLeft_eq]
    have hp63 : (mag u / 2 ^ 52 - 52) * 2 ^ 52 < 2 ^ 63 := by omega
    constructor
    · rw [sval_small _ hp63]
      exact mval_pos _ (by omega)
    · rw [isPowerOfTwo_iff _ (by omega)]
      left
      refine ⟨?_, ?_, ?_⟩ <;> omega
  · rw [if_neg h52]
    by_cases h1 : 1 < mag u / 2 ^ 52
    · rw [if_pos h1, Nat.shiftLeft_eq, one_mul]
      have hj : mag u / 2 ^ 52 - 1 ≤ 51 := by omega
      have hp52 : (2 : ℕ) ^ (mag u / 2 ^ 52 - 1) < 2 ^ 52 :=
        Nat.pow_lt_pow_right (by norm_num) (by omega)
      constructor
      · rw [sval_small _ (lt_trans hp52 (by norm_num))]
        exact mval_pos _ (by positivity)
      · rw [isPowerOfTwo_iff _ (lt_trans hp52 (by norm_num))]
        right
        exact ⟨Nat.div_eq_of_lt hp52, mag u / 2 ^ 52 - 1, Nat.mod_eq_of_lt hp52⟩
    · rw [if_neg h1]
      constructor
      · rw [sval_small _ (by norm_num)]
        exact mval_pos _ (by norm_num)
      · rw [isPowerOfTwo_iff _ (by norm_num)]
        right
        exact ⟨by norm_num, 0, by norm_num⟩

/-- C7 witness at the pattern of 1.0. -/
theorem c7_ulp_is_power_of_two_witness :
    0x3ff0000000000000 < 2 ^ 64 ∧ IsFinite 0x3ff0000000000000 = true ∧
    (0 < sval (Ulp 0x3ff0000000000000) ∧ IsPowerOfTwo (Ulp 0x3ff0000000000000) = true) :=
  ⟨by decide, by decide, c7_ulp_is_power_of_two 0x3ff0000000000000 (by decide) (by decide)⟩

/-- Modelled from the spec: the value 2^e for an integer exponent e, where
exponents of 1024 and above denote the overflow value +Inf (the spec reads
`Ulp(x) == 2^LogUlp(x)` with 2^1024 = +Inf by its own comment on LogUlp). -/
def pow2Val (e : ℤ) : Val := if 1024 ≤ e then .inf false else .finite ((2 : ℚ) ^ e)

/-- C1 counterexample: at a NaN input, Ulp returns the (sign-cleared) NaN
pattern, whose value is NaN, while 2^LogUlp(NaN) = 2^1024 = +Inf, so the
claimed equality fails on NaN. -/
theorem c1_counterexample :
    toVal (Ulp 0x7ff0000000000001) ≠ pow2Val (LogUlp 0x7ff0000000000001) := by decide

/-- C1 (amended): for every pattern that is not a NaN (finite or infinite),
the value of Ulp equals 2^LogUlp, reading 2^1024 as +Inf; at NaN inputs Ulp
returns NaN while 2^LogUlp(NaN) would be 2^1024 = +Inf. -/
theorem c1_ulp_matches_logUlp (u : ℕ) (hu : u < 2 ^ 64) (hnan : ¬ posInf < mag u) :
    toVal (Ulp u) = pow2Val (LogUlp u) := by
  unfold Ulp LogUlp
  dsimp only
  rw [clearSign_eq_mag, Nat.shiftRight_eq_div_pow]
  have hm63 : mag u < 2 ^ 63 := mag_lt u
  by_cases h7 : mag u / 2 ^ 52 = 2047
  · have hpi : mag u = posInf := by rw [posInf_val] at hnan ⊢; omega
    rw [if_pos h7,
      if_pos (show ((mag u / 2 ^ 52 : ℕ) : ℤ) = 2047 by exact_mod_cast h7), hpi]
    unfold toVal pow2Val
    have hmp : mag posInf = posInf := Nat.mod_eq_of_lt (by rw [posInf_val]; norm_num)
    rw [hmp, if_neg (by omega), if_pos rfl, if_pos (by norm_num)]
    have : decide (2 ^ 63 ≤ posInf) = false := by decide
    rw [this]
  · have h7i : ¬ ((mag u / 2 ^ 52 : ℕ) : ℤ) = 0x7ff := by
      intro hc
      exact h7 (by exact_mod_cast hc)
    rw [if_neg h7, if_neg h7i]
    by_cases h52 : 52 < mag u / 2 ^ 52
    · rw [if_pos h52, Nat.shiftLeft_eq]
      have ha1 : 1 ≤ mag u / 2 ^ 52 - 52 := by omega
      have ha2 : mag u / 2 ^ 52 - 52 ≤ 2046 := by omega
      have hfin : (mag u / 2 ^ 52 - 52) * 2 ^ 52 < posInf := by
        rw [posInf_val]; omega
      rw [toVal_finite _ hfin, mval_normal_pattern _ ha1 ha2]
      rw [if_pos (show (0 : ℤ) < ((mag u / 2 ^ 52 : ℕ) : ℤ) by
        exact_mod_cast (by omega : 0 < mag u / 2 ^ 52))]
      unfold pow2Val
      rw [if_neg (by push_cast; omega)]
      congr 1
      push_cast [Nat.cast_sub (by omega : 52 ≤ mag u / 2 ^ 52)]
      congr 1
      omega
    · rw [if_neg h52]
      by_cases h1 : 1 < mag u / 2 ^ 52
      · rw [if_pos h1, Nat.shiftLeft_eq, one_mul]
        have hj : mag u / 2 ^ 52 - 1 ≤ 51 := by omega
        have hlt52 : (2 : ℕ) ^ (mag u / 2 ^ 52 - 1) < 2 ^ 52 :=
          Nat.pow_lt_pow_right (by norm_num) (by omega)
        have hfin : (2 : ℕ) ^ (mag u / 2 ^ 52 - 1) < posInf := by
          rw [posInf_val]
          omega
        rw [toVal_finite _ hfin, mval_two_pow_small _ hj]
        rw [if_pos (show (0 : ℤ) < ((mag u / 2 ^ 52 : ℕ) : ℤ) by
          exact_mod_cast (by omega : 0 < mag u / 2 ^ 52))]
        unfold pow2Val
        have hle : ((mag u / 2 ^ 52 : ℕ) : ℤ) ≤ 52 :=
          by exact_mod_cast (by omega : mag u / 2 ^ 52 ≤ 52)
        rw [if_neg (by omega)]
        congr 2
        have hc2 : ((mag u / 2 ^ 52 - 1 : ℕ) : ℤ) = ((mag u / 2 ^ 52 : ℕ) : ℤ) - 1 := by
          omega
        rw [hc2]
        omega
      · rw [if_neg h1]
        have hfin : (1 : ℕ) < posInf := by rw [posInf_val]; norm_num
        rw [toVal_finite _ hfin]
        have hv : mval 1 = (2 : ℚ) ^ (-1074 : ℤ) := by
          rw [mval_small 1 (by norm_num), Nat.cast_one, one_mul]
        rw [hv]
        by_cases h0 : 0 < mag u / 2 ^ 52
        · have hcast : ((mag u / 2 ^ 52 : ℕ) : ℤ) = 1 :=
            by exact_mod_cast (by omega : mag u / 2 ^ 52 = 1)
          rw [if_pos (by rw [hcast]; norm_num)]
          unfold pow2Val
          rw [if_neg (by rw [hcast]; norm_num), hcast]
          norm_num
        · have hcast : ((mag u / 2 ^ 52 : ℕ) : ℤ) = 0 :=
            by exact_mod_cast (by omega : mag u / 2 ^ 52 = 0)
          rw [if_neg (by rw [hcast]; norm_num)]
          unfold pow2Val
          rw [if_neg (by norm_num)]

/-- C1 witness at the pattern of 1.0. -/
theorem c1_ulp_matches_logUlp_witness :
    0x3ff0000000000000 < 2 ^ 64 ∧ ¬ posInf < mag 0x3ff0000000000000 ∧
    toVal (Ulp 0x3ff0000000000000) = pow2Val (LogUlp 0x3ff0000000000000) :=
  ⟨by decide, by decide, c1_ulp_matches_logUlp 0x3ff0000000000000 (by decide) (by decide)⟩


theorem int_log_eq (q : ℚ) (L : ℤ) (h1 : (2 : ℚ) ^ L ≤ q) (h2 : q < (2 : ℚ) ^ (L + 1)) :
    Int.log 2 q = L := by
  have hq : 0 < q := lt_of_lt_of_le (by positivity) h1
  have hup := Int.zpow_log_le_self (b := 2) (R := ℚ) (by norm_num) hq
  have hdown := Int.lt_zpow_succ_log_self (b := 2) (R := ℚ) (by norm_num) q
  push_cast at hup hdown
  by_contra hne
  rcases lt_or_gt_of_ne hne with hlt | hgt
  · have hstep : (2 : ℚ) ^ (Int.log 2 q + 1) ≤ (2 : ℚ) ^ L :=
      zpow_le_zpow_right₀ (by norm_num) (by omega)
    linarith
  · have hstep : (2 : ℚ) ^ (L + 1) ≤ (2 : ℚ) ^ (Int.log 2 q) :=
      zpow_le_zpow_right₀ (by norm_num) (by omega)
    linarith

theorem int_log_between (c : ℚ) (a t : ℤ) (h1 : (2 : ℚ) ^ a ≤ c)
    (h2 : c < (2 : ℚ) ^ (a + 1)) :
    Int.log 2 (c * (2 : ℚ) ^ t) = a + t := by
  apply int_log_eq
  · calc (2 : ℚ) ^ (a + t) = 2 ^ a * 2 ^ t := zpow_add₀ (two_ne_zero) a t
    _ ≤ c * 2 ^ t := mul_le_mul_of_nonneg_right h1 (le_of_lt (by positivity))
  · calc c * 2 ^ t < 2 ^ (a + 1) * 2 ^ t := mul_lt_mul_of_pos_right h2 (by positivity)
    _ = 2 ^ (a + 1 + t) := (zpow_add₀ (two_ne_zero) _ _).symm
    _ = 2 ^ (a + t + 1) := by
        congr 1
        ring

theorem natPow_cast_zpow (k : ℕ) : ((2 ^ k : ℕ) : ℚ) = (2 : ℚ) ^ (k : ℤ) := by
  push_cast
  rw [zpow_natCast]

theorem abs_sval (u : ℕ) : |sval u| = mval (mag u) := by
  unfold sval
  split
  · exact abs_of_nonneg (mval_nonneg _)
  · rw [abs_neg]
    exact abs_of_nonneg (mval_nonneg _)

/-- C5: for finite nonzero patterns, Log2 computes the floor of the base-2
logarithm of the absolute value, and for Inf and NaN patterns Log2 returns
the sentinel 1024. -/
theorem c5_log2_floor (u : ℕ) (hu : u < 2 ^ 64) :
    (mag u < posInf → 0 < mag u → Log2 u = Int.log 2 |sval u|) ∧
    (posInf ≤ mag u → Log2 u = 1024) := by
  have hm63 : mag u < 2 ^ 63 := mag_lt u
  unfold Log2
  dsimp only
  rw [clearSign_eq_mag, Nat.shiftRight_eq_div_pow]
  constructor
  · intro hfin hpos
    rw [abs_sval]
    by_cases he : mag u / 2 ^ 52 = 0
    · have hsub : mag u < 2 ^ 52 := by omega
      obtain ⟨hs1, hs2⟩ := sizeN_correct (mag u) hpos
      have hs0 : 1 ≤ sizeN (mag u) := by
        by_contra hc
        have h0 : sizeN (mag u) = 0 := by omega
        rw [h0] at hs2
        omega
      rw [if_pos (by exact_mod_cast he)]
      rw [mval_small _ hsub]
      have hlog : Int.log 2 ((mag u : ℚ) * (2 : ℚ) ^ (-1074 : ℤ)) =
          ((sizeN (mag u) : ℤ) - 1) + -1074 := by
        apply int_log_between
        · have hcast := (Nat.cast_le (α := ℚ)).mpr hs1
          rw [natPow_cast_zpow] at hcast
          have hexp : ((sizeN (mag u) - 1 : ℕ) : ℤ) = (sizeN (mag u) : ℤ) - 1 := by
            omega
          rw [hexp] at hcast
          exact hcast
        · have hcast := (Nat.cast_lt (α := ℚ)).mpr hs2
          rw [natPow_cast_zpow] at hcast
          have hexp : ((sizeN (mag u) : ℕ) : ℤ) = (sizeN (mag u) : ℤ) - 1 + 1 := by
            omega
          rw [hexp] at hcast
          exact hcast
      rw [hlog]
      unfold Len64
      omega
    · have hnorm : 2 ^ 52 ≤ mag u := by omega
      have he2046 : mag u / 2 ^ 52 ≤ 2046 := by
        rw [posInf_val] at hfin
        omega
      rw [if_neg (by exact_mod_cast he)]
      unfold mval
      rw [if_neg (by omega)]
      have hlog : Int.log 2 ((((mag u % 2 ^ 52 : ℕ) : ℚ) + 2 ^ 52) *
          (2 : ℚ) ^ (((mag u / 2 ^ 52 : ℕ) : ℤ) - 1075)) =
          52 + (((mag u / 2 ^ 52 : ℕ) : ℤ) - 1075) := by
        apply int_log_between
        · have h1 : ((2 ^ 52 : ℕ) : ℚ) ≤ ((mag u % 2 ^ 52 : ℕ) : ℚ) + ((2 ^ 52 : ℕ) : ℚ) := by
            have : (0 : ℚ) ≤ ((mag u % 2 ^ 52 : ℕ) : ℚ) := Nat.cast_nonneg _
            linarith
          rw [natPow_cast_zpow] at h1
          convert h1 using 2
          norm_num
        · have h2 : ((mag u % 2 ^ 52 : ℕ) : ℚ) + ((2 ^ 52 : ℕ) : ℚ) < ((2 ^ 53 : ℕ) : ℚ) := by
            have hh : ((mag u % 2 ^ 52 : ℕ) : ℚ) < ((2 ^ 52 : ℕ) : ℚ) :=
              Nat.cast_lt.mpr (Nat.mod_lt _ (by norm_num))
            push_cast at hh ⊢
            linarith
          rw [natPow_cast_zpow] at h2
          convert h2 using 2
          · norm_num
          · norm_num
      rw [hlog]
      omega
  · intro hinf
    have he : mag u / 2 ^ 52 = 2047 := by
      rw [posInf_val] at hinf
      omega
    have hei : ((mag u / 2 ^ 52 : ℕ) : ℤ) = 2047 := by exact_mod_cast he
    rw [if_neg (by omega), hei]
    norm_num

/-- C5 witness at the pattern of 1.0 and at the +Inf pattern. -/
theorem c5_log2_floor_witness :
    (0x3ff0000000000000 < 2 ^ 64 ∧
      (mag 0x3ff0000000000000 < posInf → 0 < mag 0x3ff0000000000000 →
        Log2 0x3ff0000000000000 = Int.log 2 |sval 0x3ff0000000000000|)) ∧
    (posInf < 2 ^ 64 ∧ (posInf ≤ mag posInf → Log2 posInf = 1024)) :=
  ⟨⟨by decide, (c5_log2_floor 0x3ff0000000000000 (by decide)).1⟩,
   ⟨by decide, (c5_log2_floor posInf (by decide)).2⟩⟩


/-- Integer magnitude of a float64 magnitude pattern, scaled by 2^1074: every
finite float64 magnitude is intMag r * 2^-1074, and the posInf pattern gets
2^1024 * 2^1074. -/
def intMag (r : ℕ) : ℕ :=
  if r < 2 ^ 52 then r else (r % 2 ^ 52 + 2 ^ 52) * 2 ^ (r / 2 ^ 52 - 1)

/-- Spacing of the float64 grid just above magnitude pattern r, in units of
2^-1074. -/
def gapMag (r : ℕ) : ℕ := if r < 2 ^ 52 then 1 else 2 ^ (r / 2 ^ 52 - 1)

theorem intMag_zero : intMag 0 = 0 := by decide

theorem intMag_one : intMag 1 = 1 := by decide

theorem mval_eq (r : ℕ) : mval r = (intMag r : ℚ) * (2 : ℚ) ^ (-1074 : ℤ) := by
  unfold mval intMag
  split
  · rfl
  · rename_i h
    have he : 1 ≤ r / 2 ^ 52 := by omega
    have hc : (((r % 2 ^ 52 + 2 ^ 52) * 2 ^ (r / 2 ^ 52 - 1) : ℕ) : ℚ)
        = (((r % 2 ^ 52 : ℕ) : ℚ) + 2 ^ 52) * (2 : ℚ) ^ ((r / 2 ^ 52 - 1 : ℕ) : ℤ) := by
      rw [Nat.cast_mul, Nat.cast_add, natPow_cast_zpow]
      norm_num
    rw [hc, mul_assoc, ← zpow_add₀ (two_ne_zero)]
    congr 1
    congr 1
    omega

theorem intMag_pos (r : ℕ) (h : 0 < r) : 0 < intMag r := by
  unfold intMag
  split
  · omega
  · positivity

theorem intMag_succ (r : ℕ) (h : r + 1 ≤ posInf) :
    intMag (r + 1) = intMag r + gapMag r := by
  unfold intMag gapMag
  by_cases h1 : r + 1 < 2 ^ 52
  · rw [if_pos h1, if_pos (by omega), if_pos (by omega)]
  · by_cases h2 : r < 2 ^ 52
    · have hr : r + 1 = 2 ^ 52 := by omega
      rw [if_neg h1, if_pos h2, if_pos h2, hr]
      norm_num
    · rw [if_neg h1, if_neg h2, if_neg h2]
      by_cases h3 : (r + 1) % 2 ^ 52 = 0
      · have hm : r % 2 ^ 52 = 2 ^ 52 - 1 := by omega
        have hd : (r + 1) / 2 ^ 52 = r / 2 ^ 52 + 1 := by omega
        have he : 1 ≤ r / 2 ^ 52 := by omega
        rw [h3, hm, hd]
        have hp : (2 : ℕ) ^ (r / 2 ^ 52 + 1 - 1) = 2 * 2 ^ (r / 2 ^ 52 - 1) := by
          rw [show r / 2 ^ 52 + 1 - 1 = r / 2 ^ 52 - 1 + 1 by omega, pow_succ]
          ring
        rw [hp]
        have hx : (0 : ℕ) < 2 ^ (r / 2 ^ 52 - 1) := by positivity
        omega
      · have hm : (r + 1) % 2 ^ 52 = r % 2 ^ 52 + 1 := by omega
        have hd : (r + 1) / 2 ^ 52 = r / 2 ^ 52 := by omega
        rw [hm, hd]
        ring

theorem intMag_lt_succ (r : ℕ) (h : r + 1 ≤ posInf) : intMag r < intMag (r + 1) := by
  rw [intMag_succ r h]
  have : 0 < gapMag r := by
    unfold gapMag
    split
    · omega
    · positivity
  omega

theorem intMag_strictMono (r s : ℕ) (h1 : r < s) (h2 : s ≤ posInf) :
    intMag r < intMag s := by
  induction s with
  | zero => omega
  | succ k ih =>
    rcases Nat.lt_or_ge r k with h | h
    · exact lt_trans (ih h (by omega)) (intMag_lt_succ k h2)
    · have hrk : r = k := by omega
      subst hrk
      exact intMag_lt_succ r h2

theorem intMag_mono (r s : ℕ) (h1 : r ≤ s) (h2 : s ≤ posInf) :
    intMag r ≤ intMag s := by
  rcases Nat.eq_or_lt_of_le h1 with h | h
  · subst h; exact le_refl _
  · exact le_of_lt (intMag_strictMono r s h h2)

theorem gapMag_mono (r s : ℕ) (h : r ≤ s) : gapMag r ≤ gapMag s := by
  unfold gapMag
  by_cases h1 : r < 2 ^ 52
  · rw [if_pos h1]
    split
    · omega
    · exact Nat.one_le_two_pow
  · rw [if_neg h1, if_neg (by omega)]
    exact Nat.pow_le_pow_right (by norm_num) (by
      have := Nat.div_le_div_right (c := 2 ^ 52) h
      omega)

theorem gapMag_le_intMag (p : ℕ) (h1 : 2 ^ 52 ≤ p) :
    gapMag (p - 1) * 2 ^ 52 ≤ intMag p := by
  unfold gapMag intMag
  rcases Nat.eq_or_lt_of_le h1 with he | hgt
  · rw [← he]
    norm_num
  · rw [if_neg (by omega), if_neg (by omega)]
    by_cases h3 : p % 2 ^ 52 = 0
    · have hd : (p - 1) / 2 ^ 52 = p / 2 ^ 52 - 1 := by omega
      have hf : 2 ≤ p / 2 ^ 52 := by omega
      rw [hd]
      have hpow : (2 : ℕ) ^ (p / 2 ^ 52 - 1 - 1) ≤ 2 ^ (p / 2 ^ 52 - 1) :=
        Nat.pow_le_pow_right (by norm_num) (by omega)
      calc 2 ^ (p / 2 ^ 52 - 1 - 1) * 2 ^ 52 ≤ 2 ^ (p / 2 ^ 52 - 1) * 2 ^ 52 :=
            Nat.mul_le_mul_right _ hpow
      _ = (p % 2 ^ 52 + 2 ^ 52) * 2 ^ (p / 2 ^ 52 - 1) := by
            rw [h3]
            ring
    · have hd : (p - 1) / 2 ^ 52 = p / 2 ^ 52 := by omega
      rw [hd]
      have : (2 : ℕ) ^ 52 ≤ p % 2 ^ 52 + 2 ^ 52 := by omega
      calc 2 ^ (p / 2 ^ 52 - 1) * 2 ^ 52 = 2 ^ 52 * 2 ^ (p / 2 ^ 52 - 1) := by ring
      _ ≤ (p % 2 ^ 52 + 2 ^ 52) * 2 ^ (p / 2 ^ 52 - 1) := Nat.mul_le_mul_right _ this

theorem intMag_le_gap_below (r : ℕ) (h1 : 1 ≤ r) (h2 : r ≤ posInf) :
    intMag r ≤ gapMag (r - 1) * 2 ^ 53 := by
  unfold gapMag intMag
  by_cases hs : r < 2 ^ 52
  · rw [if_pos hs, if_pos (by omega)]
    omega
  · rcases Nat.eq_or_lt_of_le (by omega : 2 ^ 52 ≤ r) with he | hgt
    · rw [if_neg hs, if_pos (by omega), ← he]
      norm_num
    · rw [if_neg hs, if_neg (by omega)]
      by_cases h3 : r % 2 ^ 52 = 0
      · have hd : (r - 1) / 2 ^ 52 = r / 2 ^ 52 - 1 := by omega
        have hf : 2 ≤ r / 2 ^ 52 := by omega
        rw [hd, h3]
        have hp : (2 : ℕ) ^ (r / 2 ^ 52 - 1) = 2 ^ (r / 2 ^ 52 - 1 - 1) * 2 := by
          rw [← pow_succ]
          congr 1
          omega
        rw [hp]
        calc (0 + 2 ^ 52) * (2 ^ (r / 2 ^ 52 - 1 - 1) * 2) =
            2 ^ (r / 2 ^ 52 - 1 - 1) * 2 ^ 53 := by ring
        _ ≤ 2 ^ (r / 2 ^ 52 - 1 - 1) * 2 ^ 53 := le_refl _
      · have hd : (r - 1) / 2 ^ 52 = r / 2 ^ 52 := by omega
        rw [hd]
        have hm : r % 2 ^ 52 + 2 ^ 52 ≤ 2 ^ 53 := by omega
        calc (r % 2 ^ 52 + 2 ^ 52) * 2 ^ (r / 2 ^ 52 - 1) ≤
            2 ^ 53 * 2 ^ (r / 2 ^ 52 - 1) := Nat.mul_le_mul_right _ hm
        _ = 2 ^ (r / 2 ^ 52 - 1) * 2 ^ 53 := by ring


theorem rneInt_le (q : ℚ) : (rneInt q : ℚ) ≤ q + 1 / 2 := by
  unfold rneInt
  have hf := Int.floor_le q
  have hf2 := Int.lt_floor_add_one q
  dsimp only
  split
  · linarith
  · split
    · push_cast
      rename_i h1 h2
      linarith
    · rename_i h1 h2
      split
      · linarith
      · push_cast
        linarith

theorem le_rneInt (q : ℚ) : q - 1 / 2 ≤ (rneInt q : ℚ) := by
  unfold rneInt
  have hf := Int.floor_le q
  have hf2 := Int.lt_floor_add_one q
  dsimp only
  split
  · rename_i h1
    linarith
  · split
    · push_cast
      linarith
    · rename_i h1 h2
      split
      · linarith
      · push_cast
        linarith

theorem rneInt_nonneg (q : ℚ) (h : 0 < q) : 0 ≤ rneInt q := by
  have := le_rneInt q
  by_contra hc
  push_neg at hc
  have h1 : rneInt q ≤ -1 := by omega
  have h2 : (rneInt q : ℚ) ≤ -1 := by exact_mod_cast h1
  linarith

theorem ilog2_spec (q : ℚ) (hq : 0 < q) :
    (2 : ℚ) ^ ilog2 q ≤ q ∧ q < (2 : ℚ) ^ (ilog2 q + 1) := by
  have hnum : 0 < q.num := Rat.num_pos.mpr hq
  have ha0 : 0 < q.num.toNat := by omega
  have hb0 : 0 < q.den := q.den_pos
  obtain ⟨hsa1, hsa2⟩ := sizeN_correct q.num.toNat ha0
  obtain ⟨hsb1, hsb2⟩ := sizeN_correct q.den hb0
  have hsa0 : 1 ≤ sizeN q.num.toNat := by
    by_contra hc
    have h0 : sizeN q.num.toNat = 0 := by omega
    rw [h0] at hsa2
    omega
  have hsb0 : 1 ≤ sizeN q.den := by
    by_contra hc
    have h0 : sizeN q.den = 0 := by omega
    rw [h0] at hsb2
    omega
  have hq_eq : q = (q.num.toNat : ℚ) / (q.den : ℚ) := by
    have h1 : ((q.num.toNat : ℤ) : ℚ) = (q.num : ℚ) := by
      rw [Int.toNat_of_nonneg (le_of_lt hnum)]
    push_cast at h1
    rw [h1]
    exact (Rat.num_div_den q).symm
  have hbq : (0 : ℚ) < (q.den : ℚ) := by exact_mod_cast hb0
  have h1 : (2 : ℚ) ^ ((sizeN q.num.toNat : ℤ) - 1) ≤ (q.num.toNat : ℚ) := by
    have hc := (Nat.cast_le (α := ℚ)).mpr hsa1
    rw [natPow_cast_zpow] at hc
    have hexp : ((sizeN q.num.toNat - 1 : ℕ) : ℤ) = (sizeN q.num.toNat : ℤ) - 1 := by omega
    rw [hexp] at hc
    exact hc
  have h2 : (q.num.toNat : ℚ) < (2 : ℚ) ^ (sizeN q.num.toNat : ℤ) := by
    have hc := (Nat.cast_lt (α := ℚ)).mpr hsa2
    rw [natPow_cast_zpow] at hc
    exact hc
  have h3 : (2 : ℚ) ^ ((sizeN q.den : ℤ) - 1) ≤ (q.den : ℚ) := by
    have hc := (Nat.cast_le (α := ℚ)).mpr hsb1
    rw [natPow_cast_zpow] at hc
    have hexp : ((sizeN q.den - 1 : ℕ) : ℤ) = (sizeN q.den : ℤ) - 1 := by omega
    rw [hexp] at hc
    exact hc
  have h4 : (q.den : ℚ) < (2 : ℚ) ^ (sizeN q.den : ℤ) := by
    have hc := (Nat.cast_lt (α := ℚ)).mpr hsb2
    rw [natPow_cast_zpow] at hc
    exact hc
  have hlow : (2 : ℚ) ^ ((sizeN q.num.toNat : ℤ) - (sizeN q.den : ℤ) - 1) ≤
      (q.num.toNat : ℚ) / (q.den : ℚ) := by
    rw [le_div_iff₀ hbq]
    calc (2 : ℚ) ^ ((sizeN q.num.toNat : ℤ) - (sizeN q.den : ℤ) - 1) * (q.den : ℚ)
        ≤ (2 : ℚ) ^ ((sizeN q.num.toNat : ℤ) - (sizeN q.den : ℤ) - 1) *
          (2 : ℚ) ^ (sizeN q.den : ℤ) :=
          mul_le_mul_of_nonneg_left (le_of_lt h4) (by positivity)
    _ = (2 : ℚ) ^ ((sizeN q.num.toNat : ℤ) - 1) := by
          rw [← zpow_add₀ (two_ne_zero)]
          congr 1
          ring
    _ ≤ (q.num.toNat : ℚ) := h1
  have hhigh : (q.num.toNat : ℚ) / (q.den : ℚ) <
      (2 : ℚ) ^ ((sizeN q.num.toNat : ℤ) - (sizeN q.den : ℤ) + 1) := by
    rw [div_lt_iff₀ hbq]
    calc (q.num.toNat : ℚ) < (2 : ℚ) ^ (sizeN q.num.toNat : ℤ) := h2
    _ = (2 : ℚ) ^ ((sizeN q.num.toNat : ℤ) - (sizeN q.den : ℤ) + 1) *
        (2 : ℚ) ^ ((sizeN q.den : ℤ) - 1) := by
          rw [← zpow_add₀ (two_ne_zero)]
          congr 1
          ring
    _ ≤ (2 : ℚ) ^ ((sizeN q.num.toNat : ℤ) - (sizeN q.den : ℤ) + 1) * (q.den : ℚ) :=
          mul_le_mul_of_nonneg_left h3 (by positivity)
  rw [← hq_eq] at hlow hhigh
  unfold ilog2
  dsimp only
  split
  · rename_i hcond
    constructor
    · have : (sizeN q.num.toNat : ℤ) - (sizeN q.den : ℤ) - 1 =
          (sizeN q.num.toNat : ℤ) - (sizeN q.den : ℤ) - 1 := rfl
      exact hlow
    · have he : (sizeN q.num.toNat : ℤ) - (sizeN q.den : ℤ) - 1 + 1 =
          (sizeN q.num.toNat : ℤ) - (sizeN q.den : ℤ) := by ring
      rw [he]
      exact hcond
  · rename_i hcond
    push_neg at hcond
    exact ⟨hcond, hhigh⟩

theorem intMag_small (r : ℕ) (h : r ≤ 2 ^ 52) : intMag r = r := by
  unfold intMag
  rcases Nat.eq_or_lt_of_le h with he | hlt
  · rw [if_neg (by omega)]
    subst he
    norm_num
  · rw [if_pos hlt]

theorem encodeMag_small (n e : ℤ) (h1 : 0 ≤ n) (h2 : n < 2 ^ 52) (h3 : e ≤ 1023) :
    encodeMag n e = n.toNat := by
  unfold encodeMag
  rcases Int.le_or_lt n 0 with h | h
  · rw [if_pos h]
    omega
  · rw [if_neg (by omega)]
    dsimp only
    rw [if_neg (show ¬ n = 2 ^ 53 by omega), if_neg (show ¬ n = 2 ^ 53 by omega),
      if_neg (by omega), if_pos h2]

theorem encodeMag_zero (e : ℤ) : encodeMag 0 e = 0 := by
  unfold encodeMag
  rw [if_pos (le_refl 0)]

theorem encodeMag_normal (n e : ℤ) (h1 : 2 ^ 52 ≤ n) (h2 : n < 2 ^ 53) (h3 : e ≤ 1023) :
    encodeMag n e = (e + 1023).toNat * 2 ^ 52 + (n - 2 ^ 52).toNat := by
  unfold encodeMag
  rw [if_neg (by omega)]
  dsimp only
  rw [if_neg (show ¬ n = 2 ^ 53 by omega), if_neg (show ¬ n = 2 ^ 53 by omega),
    if_neg (by omega), if_neg (by omega)]

theorem encodeMag_bump (e : ℤ) (h3 : e + 1 ≤ 1023) :
    encodeMag (2 ^ 53) e = (e + 1 + 1023).toNat * 2 ^ 52 := by
  unfold encodeMag
  rw [if_neg (by norm_num)]
  dsimp only
  rw [if_pos rfl, if_pos rfl, if_neg (by omega), if_neg (by omega)]
  omega

theorem encodeMag_inf1 (n e : ℤ) (h1 : 0 < n) (h2 : ¬ n = 2 ^ 53) (h3 : 1023 < e) :
    encodeMag n e = posInf := by
  unfold encodeMag
  rw [if_neg (by omega)]
  dsimp only
  rw [if_neg h2, if_neg h2, if_pos h3]

theorem encodeMag_inf2 (e : ℤ) (h3 : 1023 < e + 1) : encodeMag (2 ^ 53) e = posInf := by
  unfold encodeMag
  rw [if_neg (by norm_num)]
  dsimp only
  rw [if_pos rfl, if_pos rfl, if_pos h3]

theorem int_grid_le (q : ℚ) (C t : ℤ) (ht : 0 ≤ t)
    (h : (C : ℚ) * (2 : ℚ) ^ (t - 1075) ≤ q) :
    ((C * 2 ^ t.toNat : ℤ) : ℚ) * (2 : ℚ) ^ (-1075 : ℤ) ≤ q := by
  have hc : ((C * 2 ^ t.toNat : ℤ) : ℚ) = (C : ℚ) * (2 : ℚ) ^ (t.toNat : ℤ) := by
    push_cast
    rw [zpow_natCast]
  rw [hc, Int.toNat_of_nonneg ht, mul_assoc, ← zpow_add₀ (two_ne_zero)]
  have he : t + -1075 = t - 1075 := by ring
  rw [he]
  exact h

theorem int_grid_ge (q : ℚ) (C t : ℤ) (ht : 0 ≤ t)
    (h : q ≤ (C : ℚ) * (2 : ℚ) ^ (t - 1075)) :
    q ≤ ((C * 2 ^ t.toNat : ℤ) : ℚ) * (2 : ℚ) ^ (-1075 : ℤ) := by
  have hc : ((C * 2 ^ t.toNat : ℤ) : ℚ) = (C : ℚ) * (2 : ℚ) ^ (t.toNat : ℤ) := by
    push_cast
    rw [zpow_natCast]
  rw [hc, Int.toNat_of_nonneg ht, mul_assoc, ← zpow_add₀ (two_ne_zero)]
  have he : t + -1075 = t - 1075 := by ring
  rw [he]
  exact h

theorem nat_le_int_grid (q : ℚ) (A : ℕ) (B : ℤ)
    (hB : ((B : ℤ) : ℚ) * (2 : ℚ) ^ (-1075 : ℤ) ≤ q) (hAB : (A : ℤ) ≤ B) :
    ((A : ℕ) : ℚ) * (2 : ℚ) ^ (-1075 : ℤ) ≤ q := by
  refine le_trans ?_ hB
  apply mul_le_mul_of_nonneg_right ?_ (by positivity)
  exact_mod_cast hAB

theorem nat_ge_int_grid (q : ℚ) (A : ℕ) (B : ℤ)
    (hB : q ≤ ((B : ℤ) : ℚ) * (2 : ℚ) ^ (-1075 : ℤ)) (hAB : B ≤ (A : ℤ)) :
    q ≤ ((A : ℕ) : ℚ) * (2 : ℚ) ^ (-1075 : ℤ) := by
  refine le_trans hB ?_
  apply mul_le_mul_of_nonneg_right ?_ (by positivity)
  exact_mod_cast hAB

theorem encodeMag_le_posInf (n e : ℤ) (h2 : n ≤ 2 ^ 53) (h3 : -1023 ≤ e) :
    encodeMag n e ≤ posInf := by
  unfold encodeMag
  split
  · rw [posInf_val]
    omega
  · dsimp only
    split
    · split
      · exact le_refl _
      · split
        · rw [posInf_val]
          norm_num
        · rw [posInf_val]
          omega
    · rename_i hne hn0
      split
      · exact le_refl _
      · split
        · rw [posInf_val]
          omega
        · rename_i hov hsm
          rw [posInf_val]
          have hF : (e + 1023).toNat ≤ 2046 := by omega
          have hM : (n - 2 ^ 52).toNat < 2 ^ 52 := by omega
          have := Nat.mul_le_mul_right (2 ^ 52) hF
          omega


theorem intMag_pattern (F M : ℕ) (hF : 1 ≤ F) (hM : M < 2 ^ 52) :
    intMag (F * 2 ^ 52 + M) = (M + 2 ^ 52) * 2 ^ (F - 1) := by
  unfold intMag
  have hdiv : (F * 2 ^ 52 + M) / 2 ^ 52 = F := by omega
  have hmod : (F * 2 ^ 52 + M) % 2 ^ 52 = M := by omega
  rw [if_neg (by omega), hdiv, hmod]

theorem zpow_split53 (e : ℤ) : (2 : ℚ) ^ (e - 52) = 2 * (2 : ℚ) ^ (e - 53) := by
  rw [show e - 52 = e - 53 + 1 by ring, zpow_add_one₀ (two_ne_zero)]
  ring

theorem intMag_posInf_sum : intMag (posInf - 1) + intMag posInf = (2 ^ 54 - 1) * 2 ^ 2045 := by
  have h1 : posInf - 1 = 2046 * 2 ^ 52 + (2 ^ 52 - 1) := by
    rw [posInf_val]
    norm_num
  have h2 : posInf = 2047 * 2 ^ 52 + 0 := by
    rw [posInf_val]
    norm_num
  rw [h1, h2, intMag_pattern 2046 _ (by norm_num) (by norm_num),
    intMag_pattern 2047 0 (by norm_num) (by norm_num)]
  have e1 : (2046 : ℕ) - 1 = 2045 := rfl
  have e2 : (2047 : ℕ) - 1 = 2046 := rfl
  have e3 : (2 : ℕ) ^ 2046 = 2 * 2 ^ 2045 := by
    rw [show (2046 : ℕ) = 2045 + 1 from rfl, pow_succ]
    ring
  rw [e1, e2, e3]
  have hX : (0 : ℕ) < 2 ^ 2045 := by positivity
  set X := (2 : ℕ) ^ 2045
  omega

theorem posInf_mid_le (q : ℚ) (hqe : (2 : ℚ) ^ (1024 : ℤ) ≤ q) :
    ((intMag (posInf - 1) + intMag posInf : ℕ) : ℚ) * (2 : ℚ) ^ (-1075 : ℤ) ≤ q := by
  rw [intMag_posInf_sum]
  have h1 : (((2 ^ 54 - 1) * 2 ^ 2045 : ℕ) : ℚ) ≤ ((2 ^ 54 * 2 ^ 2045 : ℕ) : ℚ) := by
    exact_mod_cast Nat.mul_le_mul_right _ (by norm_num)
  have h2 : ((2 ^ 54 * 2 ^ 2045 : ℕ) : ℚ) = (2 : ℚ) ^ (2099 : ℤ) := by
    rw [show (2 : ℕ) ^ 54 * 2 ^ 2045 = 2 ^ 2099 from by rw [← pow_add]]
    exact natPow_cast_zpow 2099
  calc (((2 ^ 54 - 1) * 2 ^ 2045 : ℕ) : ℚ) * (2 : ℚ) ^ (-1075 : ℤ)
      ≤ ((2 ^ 54 * 2 ^ 2045 : ℕ) : ℚ) * (2 : ℚ) ^ (-1075 : ℤ) :=
        mul_le_mul_of_nonneg_right h1 (by positivity)
  _ = (2 : ℚ) ^ (2099 : ℤ) * (2 : ℚ) ^ (-1075 : ℤ) := by rw [h2]
  _ = (2 : ℚ) ^ (1024 : ℤ) := by
        rw [← zpow_add₀ (two_ne_zero)]
        norm_num
  _ ≤ q := hqe

theorem roundMag_lower (q : ℚ) (hq : 0 < q) (hp : 1 ≤ roundMag q) :
    ((intMag (roundMag q - 1) + intMag (roundMag q) : ℕ) : ℚ) * (2 : ℚ) ^ (-1075 : ℤ) ≤ q := by
  unfold roundMag at hp ⊢
  rw [if_neg (by linarith)] at hp ⊢
  set e := max (ilog2 q) (-1022) with he
  set n := rneInt (q / (2 : ℚ) ^ (e - 52)) with hn
  have hspec := ilog2_spec q hq
  have he1 : -1022 ≤ e := le_max_right _ _
  have hq_up : q < 2 ^ (e + 1) :=
    lt_of_lt_of_le hspec.2 (zpow_le_zpow_right₀ one_le_two (by omega : ilog2 q + 1 ≤ e + 1))
  have hs_pos : (0 : ℚ) < 2 ^ (e - 52) := by positivity
  have h53pos : (0 : ℚ) < 2 ^ (e - 53) := by positivity
  have hn_le : (n : ℚ) ≤ q / 2 ^ (e - 52) + 1 / 2 := rneInt_le _
  have hn_ge : q / 2 ^ (e - 52) - 1 / 2 ≤ (n : ℚ) := le_rneInt _
  have hdiv : q / 2 ^ (e - 52) * 2 ^ (e - 52) = q := div_mul_cancel₀ q (ne_of_gt hs_pos)
  have hv_le : (n : ℚ) * 2 ^ (e - 52) ≤ q + 2 ^ (e - 53) := by
    calc (n : ℚ) * 2 ^ (e - 52) ≤ (q / 2 ^ (e - 52) + 1 / 2) * 2 ^ (e - 52) :=
          mul_le_mul_of_nonneg_right hn_le (le_of_lt hs_pos)
    _ = q + 2 ^ (e - 52) / 2 := by
          rw [add_mul, hdiv]
          ring
    _ = q + 2 ^ (e - 53) := by
          rw [zpow_split53]
          ring
  have hv_ge : q - 2 ^ (e - 53) ≤ (n : ℚ) * 2 ^ (e - 52) := by
    calc q - 2 ^ (e - 53) = (q / 2 ^ (e - 52) - 1 / 2) * 2 ^ (e - 52) := by
          rw [sub_mul, hdiv, zpow_split53]
          ring
    _ ≤ (n : ℚ) * 2 ^ (e - 52) := mul_le_mul_of_nonneg_right hn_ge (le_of_lt hs_pos)
  have hn_ub : n ≤ 2 ^ 53 := by
    by_contra hc
    push_neg at hc
    have h1 : ((2 : ℤ) ^ 53 + 1 : ℤ) ≤ n := by omega
    have h2 : (((2 : ℤ) ^ 53 + 1 : ℤ) : ℚ) ≤ (n : ℚ) := by exact_mod_cast h1
    have h3 : ((2 : ℚ) ^ (53 : ℕ) + 1) * 2 ^ (e - 52) ≤ q + 2 ^ (e - 53) := by
      refine le_trans (mul_le_mul_of_nonneg_right ?_ (le_of_lt hs_pos)) hv_le
      push_cast at h2
      linarith
    have h4 : ((2 : ℚ) ^ (53 : ℕ)) * 2 ^ (e - 52) = 2 ^ (e + 1) := by
      rw [← zpow_natCast (2 : ℚ) 53, ← zpow_add₀ (two_ne_zero)]
      congr 1
      ring
    have h5 : (2 : ℚ) ^ (e - 53) < 2 ^ (e - 52) := by
      apply zpow_lt_zpow_right₀ one_lt_two
      omega
    have h6 : (2 : ℚ) ^ (e + 1) + 2 ^ (e - 52) ≤ q + 2 ^ (e - 53) := by
      have hr : ((2 : ℚ) ^ (53 : ℕ) + 1) * 2 ^ (e - 52) =
          (2 : ℚ) ^ (53 : ℕ) * 2 ^ (e - 52) + 2 ^ (e - 52) := by ring
      rw [hr, h4] at h3
      exact h3
    linarith
  have hn_pos : 1 ≤ n := by
    by_contra hc
    push_neg at hc
    have hz : encodeMag n e = 0 := by
      unfold encodeMag
      rw [if_pos (by omega)]
    rw [hz] at hp
    omega
  have hn52 : (2 : ℚ) ^ e ≤ q → (2 : ℤ) ^ 52 ≤ n := by
    intro hqe
    have h1 : (2 : ℚ) ^ (52 : ℤ) ≤ q / 2 ^ (e - 52) := by
      rw [le_div_iff₀ hs_pos, ← zpow_add₀ (two_ne_zero)]
      rw [show (52 : ℤ) + (e - 52) = e by ring]
      exact hqe
    have h2 : (((2 : ℤ) ^ 52 - 1 : ℤ) : ℚ) < (n : ℚ) := by
      push_cast
      have hzz : ((2 : ℚ) ^ (52 : ℤ)) = ((2 : ℚ) ^ (52 : ℕ)) := by
        norm_num
      linarith [hn_ge, h1]
    have h3 : (2 : ℤ) ^ 52 - 1 < n := by exact_mod_cast h2
    omega
  have hcase : (2 : ℚ) ^ e ≤ q ∨ e = -1022 := by
    rcases max_choice (ilog2 q) (-1022) with h | h
    · left
      rw [he, h]
      exact hspec.1
    · right
      rw [he, h]
  have hgen : ((2 * n - 1 : ℤ) : ℚ) * 2 ^ (e + 1022 - 1075) ≤ q := by
    rw [show e + 1022 - 1075 = e - 53 by ring]
    push_cast
    have hr : (2 * (n : ℚ) - 1) * 2 ^ (e - 53) = (n : ℚ) * (2 * 2 ^ (e - 53)) - 2 ^ (e - 53) := by
      ring
    rw [hr, ← zpow_split53]
    linarith [hv_ge]
  have hB := int_grid_le q (2 * n - 1) (e + 1022) (by omega) hgen
  by_cases hb : n = 2 ^ 53
  · by_cases hov : e + 1 ≤ 1023
    · rw [hb, encodeMag_bump e hov] at hp ⊢
      set F := (e + 1 + 1023).toNat with hF
      have hF2 : 2 ≤ F := by omega
      have hsum : intMag (F * 2 ^ 52 - 1) + intMag (F * 2 ^ 52) = (2 ^ 54 - 1) * 2 ^ (F - 2) := by
        have hp1 : F * 2 ^ 52 - 1 = (F - 1) * 2 ^ 52 + (2 ^ 52 - 1) := by omega
        have hi0 := intMag_pattern (F - 1) (2 ^ 52 - 1) (by omega) (by omega)
        have hi1 := intMag_pattern F 0 (by omega) (by norm_num)
        rw [Nat.add_zero] at hi1
        rw [hp1, hi0, hi1]
        have hx : (2 : ℕ) ^ (F - 1) = 2 * 2 ^ (F - 2) := by
          rw [show F - 1 = F - 2 + 1 by omega, pow_succ]
          ring
        have hy : (2 : ℕ) ^ (F - 1 - 1) = 2 ^ (F - 2) := by
          have hyy : F - 1 - 1 = F - 2 := by omega
          rw [hyy]
        rw [hx, hy]
        ring
      rw [hsum]
      apply nat_le_int_grid q _ _ hB
      have ht : (e + 1022).toNat = F - 2 := by omega
      rw [ht, hb]
      push_cast
      exact le_refl _
    · rw [hb, encodeMag_inf2 e (by omega)] at hp ⊢
      rw [intMag_posInf_sum]
      by_cases he23 : e = 1023
      · apply nat_le_int_grid q _ _ hB
        have ht : (e + 1022).toNat = 2045 := by omega
        rw [ht, hb, Nat.cast_mul, Nat.cast_pow]
        norm_num
      · have hqe : (2 : ℚ) ^ e ≤ q := by
          rcases hcase with h | h
          · exact h
          · omega
        have hmono : (2 : ℚ) ^ (1024 : ℤ) ≤ q :=
          le_trans (zpow_le_zpow_right₀ one_le_two (by omega)) hqe
        rw [← intMag_posInf_sum]
        exact posInf_mid_le q hmono
  · by_cases h52 : (2 : ℤ) ^ 52 ≤ n
    · by_cases hov : e ≤ 1023
      · rw [encodeMag_normal n e h52 (by omega) hov] at hp ⊢
        set F := (e + 1023).toNat with hF
        set M := (n - 2 ^ 52).toNat with hM
        have hF1 : 1 ≤ F := by omega
        have hMlt : M < 2 ^ 52 := by omega
        have hieq : intMag (F * 2 ^ 52 + M) = (M + 2 ^ 52) * 2 ^ (F - 1) :=
          intMag_pattern F M hF1 hMlt
        by_cases hM0 : 0 < M
        · have hp1 : F * 2 ^ 52 + M - 1 = F * 2 ^ 52 + (M - 1) := by omega
          have hi0 : intMag (F * 2 ^ 52 + (M - 1)) = (M - 1 + 2 ^ 52) * 2 ^ (F - 1) :=
            intMag_pattern F (M - 1) hF1 (by omega)
          rw [hp1, hi0, hieq, ← Nat.add_mul]
          apply nat_le_int_grid q _ _ hB
          have ht : (e + 1022).toNat = F - 1 := by omega
          rw [ht]
          have hco : M - 1 + 2 ^ 52 + (M + 2 ^ 52) = 2 * M + 2 ^ 53 - 1 := by omega
          rw [hco, Nat.cast_mul]
          have hcoz : ((2 * M + 2 ^ 53 - 1 : ℕ) : ℤ) = 2 * n - 1 := by omega
          rw [hcoz, Nat.cast_pow]
          push_cast
          exact le_refl _
        · have hn2 : n = 2 ^ 52 := by omega
          by_cases hF2 : 2 ≤ F
          · have hqe : (2 : ℚ) ^ e ≤ q := by
              rcases hcase with h | h
              · exact h
              · omega
            have hcast54 : (((2 : ℤ) ^ 54 : ℤ) : ℚ) * (2 : ℚ) ^ (e - 54) = (2 : ℚ) ^ e := by
              rw [show (((2 : ℤ) ^ 54 : ℤ) : ℚ) = ((2 : ℚ) ^ (54 : ℕ)) from by norm_num]
              rw [← zpow_natCast (2 : ℚ) 54, ← zpow_add₀ (two_ne_zero)]
              congr 1
              omega
            have hB2 := int_grid_le q (2 ^ 54) (e + 1021) (by omega) (by
              rw [show e + 1021 - 1075 = e - 54 by ring, hcast54]
              exact hqe)
            have hp1 : F * 2 ^ 52 + M - 1 = (F - 1) * 2 ^ 52 + (2 ^ 52 - 1) := by omega
            have hi0 := intMag_pattern (F - 1) (2 ^ 52 - 1) (by omega) (by omega)
            rw [hp1, hi0, hieq]
            apply nat_le_int_grid q _ _ hB2
            have ht : (e + 1021).toNat = F - 2 := by omega
            rw [ht]
            have hy : F - 1 - 1 = F - 2 := by omega
            have hx : (2 : ℕ) ^ (F - 1) = 2 * 2 ^ (F - 2) := by
              rw [show F - 1 = F - 2 + 1 by omega, pow_succ]
              ring
            rw [hy, hx]
            have hMe : M = 0 := by omega
            rw [hMe]
            have hnat : ((2 ^ 52 - 1 + 2 ^ 52) * 2 ^ (F - 2)
                + (0 + 2 ^ 52) * (2 * 2 ^ (F - 2)) : ℕ) ≤ 2 ^ 54 * 2 ^ (F - 2) := by
              omega
            exact_mod_cast hnat
          · have hFeq : F = 1 := by omega
            have hMe : M = 0 := by omega
            have hp1 : F * 2 ^ 52 + M - 1 = 2 ^ 52 - 1 := by omega
            rw [hp1, hieq, intMag_small _ (by omega)]
            apply nat_le_int_grid q _ _ hB
            have he22 : e = -1022 := by omega
            rw [he22]
            have ht0 : ((-1022 : ℤ) + 1022).toNat = 0 := by norm_num
            rw [ht0]
            rw [hFeq, hMe]
            push_cast
            rw [hn2]
            norm_num
      · rw [encodeMag_inf1 n e (by omega) hb (by omega)] at hp ⊢
        have hqe : (2 : ℚ) ^ e ≤ q := by
          rcases hcase with h | h
          · exact h
          · omega
        have hmono : (2 : ℚ) ^ (1024 : ℤ) ≤ q :=
          le_trans (zpow_le_zpow_right₀ one_le_two (by omega)) hqe
        exact posInf_mid_le q hmono
    · push_neg at h52
      have hclamp : e = -1022 := by
        rcases hcase with h | h
        · exact absurd (hn52 h) (by omega)
        · exact h
      rw [encodeMag_small n e (by omega) (by omega) (by omega)] at hp ⊢
      rw [intMag_small _ (by omega), intMag_small _ (by omega)]
      apply nat_le_int_grid q _ _ hB
      rw [hclamp]
      have ht0 : ((-1022 : ℤ) + 1022).toNat = 0 := by norm_num
      rw [ht0]
      push_cast
      omega

/-- Upper midpoint bound: a positive rational rounds to a pattern whose
upper midpoint (toward the next pattern) is at least the rational. -/
theorem roundMag_upper (q : ℚ) (hq : 0 < q) (hlt : roundMag q < posInf) :
    q ≤ ((intMag (roundMag q) + intMag (roundMag q + 1) : ℕ) : ℚ) * (2 : ℚ) ^ (-1075 : ℤ) := by
  unfold roundMag at hlt ⊢
  rw [if_neg (by linarith)] at hlt ⊢
  set e := max (ilog2 q) (-1022) with he
  set n := rneInt (q / (2 : ℚ) ^ (e - 52)) with hn
  have hspec := ilog2_spec q hq
  have he1 : -1022 ≤ e := le_max_right _ _
  have hq_up : q < 2 ^ (e + 1) :=
    lt_of_lt_of_le hspec.2 (zpow_le_zpow_right₀ one_le_two (by omega : ilog2 q + 1 ≤ e + 1))
  have hs_pos : (0 : ℚ) < 2 ^ (e - 52) := by positivity
  have h53pos : (0 : ℚ) < 2 ^ (e - 53) := by positivity
  have hn_le : (n : ℚ) ≤ q / 2 ^ (e - 52) + 1 / 2 := rneInt_le _
  have hn_ge : q / 2 ^ (e - 52) - 1 / 2 ≤ (n : ℚ) := le_rneInt _
  have hdiv : q / 2 ^ (e - 52) * 2 ^ (e - 52) = q := div_mul_cancel₀ q (ne_of_gt hs_pos)
  have hv_le : (n : ℚ) * 2 ^ (e - 52) ≤ q + 2 ^ (e - 53) := by
    calc (n : ℚ) * 2 ^ (e - 52) ≤ (q / 2 ^ (e - 52) + 1 / 2) * 2 ^ (e - 52) :=
          mul_le_mul_of_nonneg_right hn_le (le_of_lt hs_pos)
    _ = q + 2 ^ (e - 52) / 2 := by
          rw [add_mul, hdiv]
          ring
    _ = q + 2 ^ (e - 53) := by
          rw [zpow_split53]
          ring
  have hv_ge : q - 2 ^ (e - 53) ≤ (n : ℚ) * 2 ^ (e - 52) := by
    calc q - 2 ^ (e - 53) = (q / 2 ^ (e - 52) - 1 / 2) * 2 ^ (e - 52) := by
          rw [sub_mul, hdiv, zpow_split53]
          ring
    _ ≤ (n : ℚ) * 2 ^ (e - 52) := mul_le_mul_of_nonneg_right hn_ge (le_of_lt hs_pos)
  have hn_ub : n ≤ 2 ^ 53 := by
    by_contra hc
    push_neg at hc
    have h1 : ((2 : ℤ) ^ 53 + 1 : ℤ) ≤ n := by omega
    have h2 : (((2 : ℤ) ^ 53 + 1 : ℤ) : ℚ) ≤ (n : ℚ) := by exact_mod_cast h1
    have h3 : ((2 : ℚ) ^ (53 : ℕ) + 1) * 2 ^ (e - 52) ≤ q + 2 ^ (e - 53) := by
      refine le_trans (mul_le_mul_of_nonneg_right ?_ (le_of_lt hs_pos)) hv_le
      push_cast at h2
      linarith
    have h4 : ((2 : ℚ) ^ (53 : ℕ)) * 2 ^ (e - 52) = 2 ^ (e + 1) := by
      rw [← zpow_natCast (2 : ℚ) 53, ← zpow_add₀ (two_ne_zero)]
      congr 1
      ring
    have h5 : (2 : ℚ) ^ (e - 53) < 2 ^ (e - 52) := by
      apply zpow_lt_zpow_right₀ one_lt_two
      omega
    have h6 : (2 : ℚ) ^ (e + 1) + 2 ^ (e - 52) ≤ q + 2 ^ (e - 53) := by
      have hr : ((2 : ℚ) ^ (53 : ℕ) + 1) * 2 ^ (e - 52) =
          (2 : ℚ) ^ (53 : ℕ) * 2 ^ (e - 52) + 2 ^ (e - 52) := by ring
      rw [hr, h4] at h3
      exact h3
    linarith
  have hn_nonneg : 0 ≤ n := rneInt_nonneg _ (div_pos hq hs_pos)
  have hn52 : (2 : ℚ) ^ e ≤ q → (2 : ℤ) ^ 52 ≤ n := by
    intro hqe
    have h1 : (2 : ℚ) ^ (52 : ℤ) ≤ q / 2 ^ (e - 52) := by
      rw [le_div_iff₀ hs_pos, ← zpow_add₀ (two_ne_zero)]
      rw [show (52 : ℤ) + (e - 52) = e by ring]
      exact hqe
    have h2 : (((2 : ℤ) ^ 52 - 1 : ℤ) : ℚ) < (n : ℚ) := by
      push_cast
      have hzz : ((2 : ℚ) ^ (52 : ℤ)) = ((2 : ℚ) ^ (52 : ℕ)) := by
        norm_num
      linarith [hn_ge, h1]
    have h3 : (2 : ℤ) ^ 52 - 1 < n := by exact_mod_cast h2
    omega
  have hcase : (2 : ℚ) ^ e ≤ q ∨ e = -1022 := by
    rcases max_choice (ilog2 q) (-1022) with h | h
    · left
      rw [he, h]
      exact hspec.1
    · right
      rw [he, h]
  have hgen : q ≤ ((2 * n + 1 : ℤ) : ℚ) * 2 ^ (e + 1022 - 1075) := by
    rw [show e + 1022 - 1075 = e - 53 by ring]
    push_cast
    have hr : (2 * (n : ℚ) + 1) * 2 ^ (e - 53) = (n : ℚ) * (2 * 2 ^ (e - 53)) + 2 ^ (e - 53) := by
      ring
    rw [hr, ← zpow_split53]
    linarith [hv_ge]
  have hB := int_grid_ge q (2 * n + 1) (e + 1022) (by omega) hgen
  by_cases hb : n = 2 ^ 53
  · by_cases hov : e + 1 ≤ 1023
    · rw [hb, encodeMag_bump e hov] at hlt ⊢
      set F := (e + 1 + 1023).toNat with hF
      have hF2 : 2 ≤ F := by omega
      have hi0 := intMag_pattern F 0 (by omega) (by norm_num)
      rw [Nat.add_zero] at hi0
      have hi1 := intMag_pattern F 1 (by omega) (by norm_num)
      rw [hi0, hi1]
      apply nat_ge_int_grid q _ _ hB
      have ht : (e + 1022).toNat = F - 2 := by omega
      rw [ht, hb]
      have hx : (2 : ℕ) ^ (F - 1) = 2 * 2 ^ (F - 2) := by
        rw [show F - 1 = F - 2 + 1 by omega, pow_succ]
        ring
      rw [hx]
      have hnat : ((2 * 2 ^ 53 + 1) * 2 ^ (F - 2) : ℕ)
          ≤ 2 ^ 52 * (2 * 2 ^ (F - 2)) + (1 + 2 ^ 52) * (2 * 2 ^ (F - 2)) := by
        omega
      exact_mod_cast hnat
    · rw [hb, encodeMag_inf2 e (by omega)] at hlt
      exact absurd hlt (lt_irrefl _)
  · by_cases h52 : (2 : ℤ) ^ 52 ≤ n
    · by_cases hov : e ≤ 1023
      · rw [encodeMag_normal n e h52 (by omega) hov] at hlt ⊢
        set F := (e + 1023).toNat with hF
        set M := (n - 2 ^ 52).toNat with hM
        have hF1 : 1 ≤ F := by omega
        have hMlt : M < 2 ^ 52 := by omega
        have hieq : intMag (F * 2 ^ 52 + M) = (M + 2 ^ 52) * 2 ^ (F - 1) :=
          intMag_pattern F M hF1 hMlt
        have ht : (e + 1022).toNat = F - 1 := by omega
        by_cases hM1 : M + 1 < 2 ^ 52
        · have hp1 : F * 2 ^ 52 + M + 1 = F * 2 ^ 52 + (M + 1) := by omega
          have hi1 : intMag (F * 2 ^ 52 + (M + 1)) = (M + 1 + 2 ^ 52) * 2 ^ (F - 1) :=
            intMag_pattern F (M + 1) hF1 hM1
          rw [hp1, hieq, hi1]
          apply nat_ge_int_grid q _ _ hB
          rw [ht]
          have hco : (2 * n + 1 : ℤ) = ((2 * M + 2 ^ 53 + 1 : ℕ) : ℤ) := by omega
          rw [hco]
          have hnat : ((2 * M + 2 ^ 53 + 1) * 2 ^ (F - 1) : ℕ)
              = (M + 2 ^ 52) * 2 ^ (F - 1) + (M + 1 + 2 ^ 52) * 2 ^ (F - 1) := by
            ring
          exact_mod_cast le_of_eq hnat
        · have hMeq : M = 2 ^ 52 - 1 := by omega
          have hp1 : F * 2 ^ 52 + M + 1 = (F + 1) * 2 ^ 52 + 0 := by omega
          have hi1 : intMag ((F + 1) * 2 ^ 52 + 0) = (0 + 2 ^ 52) * 2 ^ (F + 1 - 1) :=
            intMag_pattern (F + 1) 0 (by omega) (by norm_num)
          rw [hp1, hieq, hi1]
          apply nat_ge_int_grid q _ _ hB
          rw [ht]
          have hco : (2 * n + 1 : ℤ) = ((2 ^ 54 - 1 : ℕ) : ℤ) := by omega
          rw [hco]
          have hss : F + 1 - 1 = F := by omega
          have hxF : (2 : ℕ) ^ F = 2 * 2 ^ (F - 1) := by
            have h := pow_succ 2 (F - 1)
            rw [show F - 1 + 1 = F by omega] at h
            rw [h]
            ring
          rw [hss, hxF]
          have hnat : ((2 ^ 54 - 1) * 2 ^ (F - 1) : ℕ)
              ≤ (M + 2 ^ 52) * 2 ^ (F - 1) + (0 + 2 ^ 52) * (2 * 2 ^ (F - 1)) := by
            rw [hMeq]
            omega
          exact_mod_cast hnat
      · rw [encodeMag_inf1 n e (by omega) hb (by omega)] at hlt
        exact absurd hlt (lt_irrefl _)
    · push_neg at h52
      have hclamp : e = -1022 := by
        rcases hcase with h | h
        · exact absurd (hn52 h) (by omega)
        · exact h
      rw [encodeMag_small n e hn_nonneg (by omega) (by omega)]
      rw [intMag_small _ (by omega), intMag_small _ (by omega)]
      apply nat_ge_int_grid q _ _ hB
      rw [hclamp]
      have ht0 : ((-1022 : ℤ) + 1022).toNat = 0 := by norm_num
      rw [ht0]
      omega

theorem zpow_m1074_split : (2 : ℚ) ^ (-1074 : ℤ) = 2 * (2 : ℚ) ^ (-1075 : ℤ) := by
  rw [show (-1074 : ℤ) = -1075 + 1 by ring, zpow_add_one₀ (two_ne_zero)]
  ring

theorem mval_grid (r : ℕ) : mval r = ((2 * intMag r : ℕ) : ℚ) * (2 : ℚ) ^ (-1075 : ℤ) := by
  rw [mval_eq, zpow_m1074_split]
  push_cast
  ring

theorem grid_le_grid (a b : ℕ) (h : a ≤ b) :
    ((a : ℕ) : ℚ) * (2 : ℚ) ^ (-1075 : ℤ) ≤ ((b : ℕ) : ℚ) * (2 : ℚ) ^ (-1075 : ℤ) :=
  mul_le_mul_of_nonneg_right (by exact_mod_cast h) (by positivity)

theorem grid_lt_grid (a b : ℕ) (h : a < b) :
    ((a : ℕ) : ℚ) * (2 : ℚ) ^ (-1075 : ℤ) < ((b : ℕ) : ℚ) * (2 : ℚ) ^ (-1075 : ℤ) :=
  mul_lt_mul_of_pos_right (by exact_mod_cast h) (by positivity)

theorem grid_nonneg (a : ℕ) : (0 : ℚ) ≤ ((a : ℕ) : ℚ) * (2 : ℚ) ^ (-1075 : ℤ) := by
  positivity

/-- The rounded integer significand never exceeds 2^53. -/
theorem rne_n_ub (q : ℚ) (hq : 0 < q) :
    rneInt (q / (2 : ℚ) ^ (max (ilog2 q) (-1022) - 52)) ≤ 2 ^ 53 := by
  set e := max (ilog2 q) (-1022) with he
  set n := rneInt (q / (2 : ℚ) ^ (e - 52)) with hn
  have hspec := ilog2_spec q hq
  have he1 : -1022 ≤ e := le_max_right _ _
  have hq_up : q < 2 ^ (e + 1) :=
    lt_of_lt_of_le hspec.2 (zpow_le_zpow_right₀ one_le_two (by omega : ilog2 q + 1 ≤ e + 1))
  have hs_pos : (0 : ℚ) < 2 ^ (e - 52) := by positivity
  have h53pos : (0 : ℚ) < 2 ^ (e - 53) := by positivity
  have hn_le : (n : ℚ) ≤ q / 2 ^ (e - 52) + 1 / 2 := rneInt_le _
  have hdiv : q / 2 ^ (e - 52) * 2 ^ (e - 52) = q := div_mul_cancel₀ q (ne_of_gt hs_pos)
  have hv_le : (n : ℚ) * 2 ^ (e - 52) ≤ q + 2 ^ (e - 53) := by
    calc (n : ℚ) * 2 ^ (e - 52) ≤ (q / 2 ^ (e - 52) + 1 / 2) * 2 ^ (e - 52) :=
          mul_le_mul_of_nonneg_right hn_le (le_of_lt hs_pos)
    _ = q + 2 ^ (e - 52) / 2 := by
          rw [add_mul, hdiv]
          ring
    _ = q + 2 ^ (e - 53) := by
          rw [zpow_split53]
          ring
  by_contra hc
  push_neg at hc
  have h1 : ((2 : ℤ) ^ 53 + 1 : ℤ) ≤ n := by omega
  have h2 : (((2 : ℤ) ^ 53 + 1 : ℤ) : ℚ) ≤ (n : ℚ) := by exact_mod_cast h1
  have h3 : ((2 : ℚ) ^ (53 : ℕ) + 1) * 2 ^ (e - 52) ≤ q + 2 ^ (e - 53) := by
    refine le_trans (mul_le_mul_of_nonneg_right ?_ (le_of_lt hs_pos)) hv_le
    push_cast at h2
    linarith
  have h4 : ((2 : ℚ) ^ (53 : ℕ)) * 2 ^ (e - 52) = 2 ^ (e + 1) := by
    rw [← zpow_natCast (2 : ℚ) 53, ← zpow_add₀ (two_ne_zero)]
    congr 1
    ring
  have h5 : (2 : ℚ) ^ (e - 53) < 2 ^ (e - 52) := by
    apply zpow_lt_zpow_right₀ one_lt_two
    omega
  have h6 : (2 : ℚ) ^ (e + 1) + 2 ^ (e - 52) ≤ q + 2 ^ (e - 53) := by
    have hr : ((2 : ℚ) ^ (53 : ℕ) + 1) * 2 ^ (e - 52) =
        (2 : ℚ) ^ (53 : ℕ) * 2 ^ (e - 52) + 2 ^ (e - 52) := by ring
    rw [hr, h4] at h3
    exact h3
  linarith

/-- Rounding a rational magnitude never overshoots the posInf pattern. -/
theorem roundMag_le_posInf (q : ℚ) : roundMag q ≤ posInf := by
  unfold roundMag
  split
  · exact Nat.zero_le _
  · rename_i h
    push_neg at h
    exact encodeMag_le_posInf _ _ (rne_n_ub q h)
      (le_trans (by norm_num) (le_max_right _ _))

/-- If the value of a pattern is at most q, q rounds to at least that pattern. -/
theorem roundMag_ge (r : ℕ) (q : ℚ) (hr : r ≤ posInf) (h : mval r ≤ q) :
    r ≤ roundMag q := by
  rcases Nat.eq_zero_or_pos r with h0 | h0
  · rw [h0]
    exact Nat.zero_le _
  by_contra hc
  push_neg at hc
  have hq : 0 < q := lt_of_lt_of_le (mval_pos r h0) h
  have hup := roundMag_upper q hq (lt_of_lt_of_le hc hr)
  have h1 : intMag (roundMag q) < intMag (roundMag q + 1) :=
    intMag_strictMono _ _ (by omega) (by omega)
  have h2 : intMag (roundMag q + 1) ≤ intMag r := intMag_mono _ _ (by omega) hr
  have hlt2 : ((intMag (roundMag q) + intMag (roundMag q + 1) : ℕ) : ℚ) * (2 : ℚ) ^ (-1075 : ℤ)
      < ((2 * intMag r : ℕ) : ℚ) * (2 : ℚ) ^ (-1075 : ℤ) := grid_lt_grid _ _ (by omega)
  rw [← mval_grid] at hlt2
  linarith

/-- If q is at most the value of a pattern, q rounds to at most that pattern. -/
theorem roundMag_le (r : ℕ) (q : ℚ) (h : q ≤ mval r) : roundMag q ≤ r := by
  rcases le_or_lt q 0 with hq | hq
  · unfold roundMag
    rw [if_pos hq]
    exact Nat.zero_le _
  by_contra hc
  push_neg at hc
  have hT0 := roundMag_le_posInf q
  have hlow := roundMag_lower q hq (by omega)
  have h1 : intMag r ≤ intMag (roundMag q - 1) := intMag_mono _ _ (by omega) (by omega)
  have h2 : intMag (roundMag q - 1) < intMag (roundMag q) :=
    intMag_strictMono _ _ (by omega) hT0
  have hlt2 : ((2 * intMag r : ℕ) : ℚ) * (2 : ℚ) ^ (-1075 : ℤ)
      < ((intMag (roundMag q - 1) + intMag (roundMag q) : ℕ) : ℚ) * (2 : ℚ) ^ (-1075 : ℤ) :=
    grid_lt_grid _ _ (by omega)
  rw [← mval_grid] at hlt2
  linarith

/-- Rounding is the identity on exact pattern values. -/
theorem roundMag_mval (r : ℕ) (hr : r ≤ posInf) : roundMag (mval r) = r :=
  le_antisymm (roundMag_le r (mval r) (le_refl _)) (roundMag_ge r (mval r) hr (le_refl _))

/-- Strictly below the upper midpoint of pattern r, q rounds down to at most r. -/
theorem roundMag_le_of_lt_mid (r : ℕ) (q : ℚ)
    (h : q < ((intMag r + intMag (r + 1) : ℕ) : ℚ) * (2 : ℚ) ^ (-1075 : ℤ)) :
    roundMag q ≤ r := by
  rcases le_or_lt q 0 with hq | hq
  · unfold roundMag
    rw [if_pos hq]
    exact Nat.zero_le _
  by_contra hc
  push_neg at hc
  have hT0 := roundMag_le_posInf q
  have hlow := roundMag_lower q hq (by omega)
  have h1 : intMag r ≤ intMag (roundMag q - 1) := intMag_mono _ _ (by omega) (by omega)
  have h2 : intMag (r + 1) ≤ intMag (roundMag q) := intMag_mono _ _ (by omega) hT0
  have hle : ((intMag r + intMag (r + 1) : ℕ) : ℚ) * (2 : ℚ) ^ (-1075 : ℤ)
      ≤ ((intMag (roundMag q - 1) + intMag (roundMag q) : ℕ) : ℚ) * (2 : ℚ) ^ (-1075 : ℤ) :=
    grid_le_grid _ _ (by omega)
  linarith

/-- At or below the upper midpoint of pattern r, q rounds to at most r+1. -/
theorem roundMag_le_succ_of_le_mid (r : ℕ) (q : ℚ)
    (h : q ≤ ((intMag r + intMag (r + 1) : ℕ) : ℚ) * (2 : ℚ) ^ (-1075 : ℤ)) :
    roundMag q ≤ r + 1 := by
  rcases le_or_lt q 0 with hq | hq
  · unfold roundMag
    rw [if_pos hq]
    exact Nat.zero_le _
  by_contra hc
  push_neg at hc
  have hT0 := roundMag_le_posInf q
  have hlow := roundMag_lower q hq (by omega)
  have h1 : intMag r < intMag (roundMag q - 1) := intMag_strictMono _ _ (by omega) (by omega)
  have h2 : intMag (r + 1) ≤ intMag (roundMag q) := intMag_mono _ _ (by omega) hT0
  have hlt2 : ((intMag r + intMag (r + 1) : ℕ) : ℚ) * (2 : ℚ) ^ (-1075 : ℤ)
      < ((intMag (roundMag q - 1) + intMag (roundMag q) : ℕ) : ℚ) * (2 : ℚ) ^ (-1075 : ℤ) :=
    grid_lt_grid _ _ (by omega)
  linarith

/-- Strictly above the upper midpoint of pattern r, q rounds up to at least r+1. -/
theorem succ_le_roundMag_of_mid_lt (r : ℕ) (q : ℚ) (hr : r + 1 ≤ posInf)
    (h : ((intMag r + intMag (r + 1) : ℕ) : ℚ) * (2 : ℚ) ^ (-1075 : ℤ) < q) :
    r + 1 ≤ roundMag q := by
  have hq : 0 < q := lt_of_le_of_lt (grid_nonneg _) h
  by_contra hc
  push_neg at hc
  have hup := roundMag_upper q hq (by omega)
  have h1 : intMag (roundMag q) ≤ intMag r := intMag_mono _ _ (by omega) (by omega)
  have h2 : intMag (roundMag q + 1) ≤ intMag (r + 1) := intMag_mono _ _ (by omega) hr
  have hle : ((intMag (roundMag q) + intMag (roundMag q + 1) : ℕ) : ℚ) * (2 : ℚ) ^ (-1075 : ℤ)
      ≤ ((intMag r + intMag (r + 1) : ℕ) : ℚ) * (2 : ℚ) ^ (-1075 : ℤ) :=
    grid_le_grid _ _ (by omega)
  linarith

theorem grid_le_iff (a b : ℕ) (z : ℤ) :
    ((a : ℕ) : ℚ) * (2 : ℚ) ^ z ≤ ((b : ℕ) : ℚ) * (2 : ℚ) ^ z ↔ a ≤ b := by
  rw [mul_le_mul_right (show (0 : ℚ) < (2 : ℚ) ^ z by positivity)]
  exact Nat.cast_le

theorem grid_lt_iff (a b : ℕ) (z : ℤ) :
    ((a : ℕ) : ℚ) * (2 : ℚ) ^ z < ((b : ℕ) : ℚ) * (2 : ℚ) ^ z ↔ a < b := by
  rw [mul_lt_mul_right (show (0 : ℚ) < (2 : ℚ) ^ z by positivity)]
  exact Nat.cast_lt

theorem grid_rescale (c k : ℕ) (z z' : ℤ) (hz : z = z' + (k : ℤ)) :
    ((c : ℕ) : ℚ) * (2 : ℚ) ^ z = ((c * 2 ^ k : ℕ) : ℚ) * (2 : ℚ) ^ z' := by
  subst hz
  rw [Nat.cast_mul, natPow_cast_zpow, zpow_add₀ (two_ne_zero)]
  ring

theorem grid_add (a b : ℕ) (z : ℤ) :
    ((a : ℕ) : ℚ) * (2 : ℚ) ^ z + ((b : ℕ) : ℚ) * (2 : ℚ) ^ z
      = ((a + b : ℕ) : ℚ) * (2 : ℚ) ^ z := by
  push_cast
  ring

theorem grid_mul (A B : ℕ) (za zb : ℤ) :
    ((A : ℕ) : ℚ) * (2 : ℚ) ^ za * (((B : ℕ) : ℚ) * (2 : ℚ) ^ zb)
      = ((A * B : ℕ) : ℚ) * (2 : ℚ) ^ (za + zb) := by
  rw [zpow_add₀ (two_ne_zero)]
  push_cast
  ring

theorem mval_zero : mval 0 = 0 := by
  rw [mval_eq, intMag_zero]
  norm_num

/-- intMag of the pattern of the constant 0x1.25p-53 = 293 * 2^-61. -/
theorem intMag_cup : intMag 0x3CA2500000000000 = 293 * 2 ^ 1013 := by
  have h : (0x3CA2500000000000 : ℕ) = 970 * 2 ^ 52 + 37 * 2 ^ 44 := by norm_num
  rw [h, intMag_pattern 970 (37 * 2 ^ 44) (by norm_num) (by norm_num)]
  norm_num

/-- intMag of the pattern of the constant 1 - 2^-53. -/
theorem intMag_cdown : intMag 0x3FEFFFFFFFFFFFFF = (2 ^ 53 - 1) * 2 ^ 1021 := by
  have h : (0x3FEFFFFFFFFFFFFF : ℕ) = 1022 * 2 ^ 52 + (2 ^ 52 - 1) := by norm_num
  rw [h, intMag_pattern 1022 (2 ^ 52 - 1) (by norm_num) (by norm_num)]
  norm_num

/-- intMag of the pattern of the overall largest finite magnitude. -/
theorem intMag_maxFinite : intMag (posInf - 1) = (2 ^ 53 - 1) * 2 ^ 2045 := by
  have h : posInf - 1 = 2046 * 2 ^ 52 + (2 ^ 52 - 1) := by
    rw [posInf_val]
    norm_num
  rw [h, intMag_pattern 2046 (2 ^ 52 - 1) (by norm_num) (by norm_num)]
  norm_num

theorem intMag_posInf_val : intMag posInf = 2 ^ 52 * 2 ^ 2046 := by
  have h : posInf = 2047 * 2 ^ 52 + 0 := by
    rw [posInf_val]
    norm_num
  rw [h, intMag_pattern 2047 0 (by norm_num) (by norm_num)]
  norm_num

theorem intMag_two_pow_53 : intMag (2 ^ 53) = 2 ^ 53 := by
  rw [show (2 : ℕ) ^ 53 = 2 * 2 ^ 52 + 0 by ring,
    intMag_pattern 2 0 (by norm_num) (by norm_num)]
  norm_num

theorem mid01 : intMag 0 + intMag (0 + 1) = 1 := by decide

theorem mid12 : intMag 1 + intMag (1 + 1) = 3 := by decide

/-- The integer magnitude is at most 2^53 - 1 times the local grid gap. -/
theorem intMag_le_gap (r : ℕ) : intMag r ≤ (2 ^ 53 - 1) * gapMag r := by
  unfold intMag gapMag
  by_cases h : r < 2 ^ 52
  · rw [if_pos h, if_pos h]
    omega
  · rw [if_neg h, if_neg h]
    exact Nat.mul_le_mul_right _ (by omega)

/-- The product behind NextFromZeroFP: mval r times the constant 293 * 2^-61,
expressed on the 2^-1135 grid. -/
theorem q1_form (r : ℕ) :
    mval r * mval 0x3CA2500000000000
      = ((293 * intMag r : ℕ) : ℚ) * (2 : ℚ) ^ (-1135 : ℤ) := by
  rw [mval_eq r, mval_eq 0x3CA2500000000000, intMag_cup, grid_mul]
  rw [grid_rescale (293 * intMag r) 1013 (-1135 : ℤ) ((-1074 : ℤ) + (-1074 : ℤ)) (by norm_num)]
  rw [show (intMag r * (293 * 2 ^ 1013) : ℕ) = 293 * intMag r * 2 ^ 1013 from by ring]

/-- The product behind NextToZeroFP: mval v times the constant 1 - 2^-53,
expressed on the 2^-1127 grid. -/
theorem q3_form (v : ℕ) :
    mval v * mval 0x3FEFFFFFFFFFFFFF
      = (((2 ^ 53 - 1) * intMag v : ℕ) : ℚ) * (2 : ℚ) ^ (-1127 : ℤ) := by
  rw [mval_eq v, mval_eq 0x3FEFFFFFFFFFFFFF, intMag_cdown, grid_mul]
  rw [grid_rescale ((2 ^ 53 - 1) * intMag v) 1021 (-1127 : ℤ) ((-1074 : ℤ) + (-1074 : ℤ)) (by norm_num)]
  rw [show (intMag v * ((2 ^ 53 - 1) * 2 ^ 1021) : ℕ) = (2 ^ 53 - 1) * intMag v * 2 ^ 1021 from by ring]

set_option maxHeartbeats 1000000 in
/-- Rounding analysis for the NextFromZero fast path: adding the rounded
product r * 0x1.25p-53 to the value of pattern r rounds to r or to r + 1. -/
theorem fp_up_cases (r : ℕ) (h1 : 1 ≤ r) (h2 : r ≤ posInf - 2) :
    roundMag (mval r + mval (roundMag (mval r * mval 0x3CA2500000000000))) = r ∨
    roundMag (mval r + mval (roundMag (mval r * mval 0x3CA2500000000000))) = r + 1 := by
  have hpi := posInf_val
  have hq1 := q1_form r
  have hIpos : 0 < intMag r := intMag_pos r h1
  rcases lt_trichotomy (293 * intMag r) (2 ^ 60) with hE | hE | hE
  · have h0 : roundMag (mval r * mval 0x3CA2500000000000) ≤ 0 := by
      apply roundMag_le_of_lt_mid 0
      rw [hq1, mid01]
      rw [grid_rescale 1 60 (-1075 : ℤ) (-1135 : ℤ) (by norm_num), grid_lt_iff]
      omega
    have hp1 : roundMag (mval r * mval 0x3CA2500000000000) = 0 := by omega
    rw [hp1, mval_zero, add_zero]
    left
    exact roundMag_mval r (by omega)
  · exfalso
    omega
  · rcases lt_trichotomy (293 * intMag r) (3 * 2 ^ 60) with hE3 | hE3 | hE3
    · have hub : roundMag (mval r * mval 0x3CA2500000000000) ≤ 1 := by
        apply roundMag_le_of_lt_mid 1
        rw [hq1, mid12]
        rw [grid_rescale 3 60 (-1075 : ℤ) (-1135 : ℤ) (by norm_num), grid_lt_iff]
        omega
      have hlb : 0 + 1 ≤ roundMag (mval r * mval 0x3CA2500000000000) := by
        apply succ_le_roundMag_of_mid_lt 0 _ (by rw [posInf_val]; norm_num)
        rw [hq1, mid01]
        rw [grid_rescale 1 60 (-1075 : ℤ) (-1135 : ℤ) (by norm_num), grid_lt_iff]
        omega
      have hp1 : roundMag (mval r * mval 0x3CA2500000000000) = 1 := by omega
      rw [hp1]
      by_cases hr53 : r < 2 ^ 53
      · right
        have hg : gapMag r = 1 := by
          unfold gapMag
          by_cases hs : r < 2 ^ 52
          · rw [if_pos hs]
          · rw [if_neg hs, show r / 2 ^ 52 - 1 = 0 by omega]
            norm_num
        have hmv : mval r + mval 1 = mval (r + 1) := by
          rw [mval_grid r, mval_grid 1, mval_grid (r + 1), intMag_one,
            intMag_succ r (by omega), hg]
          push_cast
          ring
        rw [hmv]
        exact roundMag_mval (r + 1) (by omega)
      · have hg2 : 2 ≤ gapMag r := by
          unfold gapMag
          rw [if_neg (by omega)]
          calc 2 = 2 ^ 1 := rfl
          _ ≤ 2 ^ (r / 2 ^ 52 - 1) := Nat.pow_le_pow_right (by norm_num) (by omega)
        have hge : r ≤ roundMag (mval r + mval 1) :=
          roundMag_ge r _ (by omega) (by linarith [mval_pos 1 Nat.one_pos])
        have hle : roundMag (mval r + mval 1) ≤ r + 1 := by
          apply roundMag_le_succ_of_le_mid
          rw [mval_grid r, mval_grid 1, intMag_one, grid_add, grid_le_iff,
            intMag_succ r (by omega)]
          omega
        omega
    · exfalso
      omega
    · have hr53 : 2 ^ 53 < r := by
        by_contra hcc
        push_neg at hcc
        have hIle : intMag r ≤ 2 ^ 53 := by
          calc intMag r ≤ intMag (2 ^ 53) :=
                intMag_mono r _ hcc (by rw [posInf_val]; norm_num)
          _ = 2 ^ 53 := intMag_two_pow_53
        omega
      have hg2 : 2 ≤ gapMag r := by
        unfold gapMag
        rw [if_neg (by omega)]
        calc 2 = 2 ^ 1 := rfl
        _ ≤ 2 ^ (r / 2 ^ 52 - 1) := Nat.pow_le_pow_right (by norm_num) (by omega)
      have hq1pos : 0 < mval r * mval 0x3CA2500000000000 :=
        mul_pos (mval_pos r (by omega)) (mval_pos _ (by norm_num))
      have hp1pos : 0 + 1 ≤ roundMag (mval r * mval 0x3CA2500000000000) := by
        apply succ_le_roundMag_of_mid_lt 0 _ (by rw [posInf_val]; norm_num)
        rw [hq1, mid01]
        rw [grid_rescale 1 60 (-1075 : ℤ) (-1135 : ℤ) (by norm_num), grid_lt_iff]
        omega
      have hp1top := roundMag_le_posInf (mval r * mval 0x3CA2500000000000)
      have hlow := roundMag_lower (mval r * mval 0x3CA2500000000000) hq1pos (by omega)
      nth_rewrite 3 [hq1] at hlow
      rw [grid_rescale (intMag (roundMag (mval r * mval 0x3CA2500000000000) - 1)
          + intMag (roundMag (mval r * mval 0x3CA2500000000000))) 60
          (-1075 : ℤ) (-1135 : ℤ) (by norm_num), grid_le_iff] at hlow
      have hIg : intMag r ≤ (2 ^ 53 - 1) * gapMag r := intMag_le_gap r
      have h293 : 293 * intMag r ≤ 293 * ((2 ^ 53 - 1) * gapMag r) :=
        Nat.mul_le_mul_left 293 hIg
      have hkey : 2 * intMag (roundMag (mval r * mval 0x3CA2500000000000)) < 3 * gapMag r := by
        rcases lt_or_ge (293 * intMag r) (2 ^ 113) with hEs | hEs
        · have hp1le52 : roundMag (mval r * mval 0x3CA2500000000000) ≤ 2 ^ 52 := by
            apply roundMag_le
            rw [hq1, mval_grid (2 ^ 52), intMag_small (2 ^ 52) (le_refl _)]
            rw [grid_rescale (2 * 2 ^ 52) 60 (-1075 : ℤ) (-1135 : ℤ) (by norm_num), grid_le_iff]
            omega
          rw [intMag_small _ hp1le52]
          rw [intMag_small _ (by omega), intMag_small _ hp1le52] at hlow
          omega
        · have hp1ge52 : 2 ^ 52 ≤ roundMag (mval r * mval 0x3CA2500000000000) := by
            apply roundMag_ge (2 ^ 52) _ (by rw [posInf_val]; norm_num)
            rw [hq1, mval_grid (2 ^ 52), intMag_small (2 ^ 52) (le_refl _)]
            rw [grid_rescale (2 * 2 ^ 52) 60 (-1075 : ℤ) (-1135 : ℤ) (by norm_num), grid_le_iff]
            omega
          have hgl := gapMag_le_intMag _ hp1ge52
          have hsucc := intMag_succ (roundMag (mval r * mval 0x3CA2500000000000) - 1) (by omega)
          rw [show roundMag (mval r * mval 0x3CA2500000000000) - 1 + 1
              = roundMag (mval r * mval 0x3CA2500000000000) by omega] at hsucc
          omega
      have hge : r ≤ roundMag (mval r + mval (roundMag (mval r * mval 0x3CA2500000000000))) :=
        roundMag_ge r _ (by omega)
          (by linarith [mval_nonneg (roundMag (mval r * mval 0x3CA2500000000000))])
      have hle : roundMag (mval r + mval (roundMag (mval r * mval 0x3CA2500000000000))) ≤ r + 1 := by
        apply roundMag_le_of_lt_mid (r + 1)
        rw [mval_grid (roundMag (mval r * mval 0x3CA2500000000000))]
        nth_rewrite 1 [mval_grid r]
        rw [grid_add, grid_lt_iff, intMag_succ (r + 1) (by omega), intMag_succ r (by omega)]
        have hgm := gapMag_mono r (r + 1) (by omega)
        omega
      omega

/-- Rounding analysis for the NextToZero fast path: multiplying the value of
pattern v by 1 - 2^-53 rounds to v - 1 or to v. -/
theorem fp_down_cases (v : ℕ) (h1 : 1 ≤ v) (h2 : v ≤ posInf - 1) :
    roundMag (mval v * mval 0x3FEFFFFFFFFFFFFF) = v - 1 ∨
    roundMag (mval v * mval 0x3FEFFFFFFFFFFFFF) = v := by
  have hpi := posInf_val
  have hq3 := q3_form v
  have hub : roundMag (mval v * mval 0x3FEFFFFFFFFFFFFF) ≤ v := by
    apply roundMag_le
    rw [hq3, mval_grid v]
    rw [grid_rescale (2 * intMag v) 52 (-1075 : ℤ) (-1127 : ℤ) (by norm_num), grid_le_iff]
    omega
  have hlb : v - 1 ≤ roundMag (mval v * mval 0x3FEFFFFFFFFFFFFF) := by
    apply roundMag_ge (v - 1) _ (by omega)
    rw [hq3, mval_grid (v - 1)]
    rw [grid_rescale (2 * intMag (v - 1)) 52 (-1075 : ℤ) (-1127 : ℤ) (by norm_num), grid_le_iff]
    have hsucc := intMag_succ (v - 1) (by omega)
    rw [show v - 1 + 1 = v by omega] at hsucc
    have hIg : intMag (v - 1) ≤ (2 ^ 53 - 1) * gapMag (v - 1) := intMag_le_gap (v - 1)
    omega
  omega

/-- The rounded product r * 0x1.25p-53 never reaches the posInf pattern. -/
theorem p1_le_maxFinite (r : ℕ) (hr : r ≤ posInf) :
    roundMag (mval r * mval 0x3CA2500000000000) ≤ posInf - 1 := by
  apply roundMag_le
  rw [q1_form r, mval_grid (posInf - 1), intMag_maxFinite]
  rw [grid_rescale (2 * ((2 ^ 53 - 1) * 2 ^ 2045)) 60 (-1075 : ℤ) (-1135 : ℤ) (by norm_num),
    grid_le_iff]
  have hIub : intMag r ≤ 2 ^ 52 * 2 ^ 2046 := by
    calc intMag r ≤ intMag posInf := intMag_mono _ _ hr (le_refl _)
    _ = 2 ^ 52 * 2 ^ 2046 := intMag_posInf_val
  calc 293 * intMag r ≤ 293 * (2 ^ 52 * 2 ^ 2046) := Nat.mul_le_mul_left 293 hIub
  _ ≤ 2 * ((2 ^ 53 - 1) * 2 ^ 2045) * 2 ^ 60 := by norm_num

theorem u_decomp (u : ℕ) (hu : u < 2 ^ 64) : u = sgn u * 2 ^ 63 + mag u := by
  unfold sgn mag
  omega

theorem mag_compose (s p : ℕ) (hs : s ≤ 1) (hp : p < 2 ^ 63) :
    mag (s * 2 ^ 63 + p) = p := by
  unfold mag
  omega

theorem sgn_compose (s p : ℕ) (hs : s ≤ 1) (hp : p < 2 ^ 63) :
    sgn (s * 2 ^ 63 + p) = s := by
  unfold sgn
  omega

theorem sgn_le_one (u : ℕ) : sgn u ≤ 1 := by
  unfold sgn
  omega

theorem sval_neg_pat (p : ℕ) (hp : p < 2 ^ 63) : sval (2 ^ 63 + p) = -mval p := by
  unfold sval
  rw [if_neg (by omega), show mag (2 ^ 63 + p) = p from by unfold mag; omega]

/-- Semantic value of a sign-magnitude composed finite pattern. -/
theorem toVal_pat (s p : ℕ) (hs : s ≤ 1) (hp : p < posInf) :
    toVal (s * 2 ^ 63 + p) = .finite (if s = 0 then mval p else -mval p) := by
  have hpi := posInf_val
  unfold toVal
  rw [mag_compose s p hs (by omega)]
  rw [if_neg (by omega), if_neg (by omega)]
  congr 1
  by_cases h0 : s = 0
  · subst h0
    rw [if_pos rfl, show 0 * 2 ^ 63 + p = p by ring, sval_small p (by omega)]
  · have h1 : s = 1 := by omega
    subst h1
    rw [if_neg (by norm_num), show 1 * 2 ^ 63 + p = 2 ^ 63 + p by ring,
      sval_neg_pat p (by omega)]

/-- Distinct finite patterns of the same sign compare IEEE-unequal. -/
theorem fne_same_sign (s p q : ℕ) (hs : s ≤ 1) (hp : p < posInf) (hq : q < posInf)
    (hne : p ≠ q) : fne (s * 2 ^ 63 + p) (s * 2 ^ 63 + q) = true := by
  have hpi := posInf_val
  have hmvne : mval p ≠ mval q := by
    intro h
    rw [mval_grid p, mval_grid q] at h
    have h2 : ((2 * intMag p : ℕ) : ℚ) = ((2 * intMag q : ℕ) : ℚ) :=
      mul_right_cancel₀ (by positivity) h
    have h3 : (2 * intMag p : ℕ) = 2 * intMag q := by exact_mod_cast h2
    rcases Nat.lt_trichotomy p q with hlt | heq | hlt
    · have := intMag_strictMono p q hlt (by omega)
      omega
    · exact hne heq
    · have := intMag_strictMono q p hlt (by omega)
      omega
  unfold fne feq
  rw [toVal_pat s p hs hp, toVal_pat s q hs hq]
  by_cases h0 : s = 0
  · rw [if_pos h0, if_pos h0]
    simp [hmvne]
  · rw [if_neg h0, if_neg h0]
    simp [hmvne]

/-- A non-NaN pattern compares IEEE-equal to itself. -/
theorem fne_self_finite (x : ℕ) (h : ¬ posInf < mag x) : fne x x = false := by
  unfold fne
  rw [feq_self]
  simp [h]

/-- A nonzero finite pattern is IEEE-unequal to the zero pattern. -/
theorem feq_pat_zero (s m : ℕ) (hs : s ≤ 1) (h1 : 1 ≤ m) (hm : m < posInf) :
    feq (s * 2 ^ 63 + m) 0 = false := by
  have hpi := posInf_val
  have hpos := mval_pos m h1
  unfold feq
  rw [toVal_pat s m hs hm, toVal_finite 0 (by omega), mval_zero]
  by_cases h0 : s = 0
  · rw [if_pos h0]
    simp [ne_of_gt hpos]
  · rw [if_neg h0]
    simp
    linarith

/-- Evaluation of the multiplication model on two finite operands. -/
theorem fmul_finite (a b : ℕ) (ha : mag a < posInf) (hb : mag b < posInf) :
    fmul a b = (sgn a + sgn b) % 2 * 2 ^ 63 + roundMag (mval (mag a) * mval (mag b)) := by
  unfold fmul
  dsimp only
  rw [if_neg (by omega), if_neg (by omega)]

/-- Evaluation of the addition model on two positive finite patterns. -/
theorem fadd_pos (p q : ℕ) (hp : p < posInf) (hq : q < posInf) (hpq : 0 < p + q) :
    fadd p q = roundMag (mval p + mval q) := by
  have hpi := posInf_val
  have hmp : mag p = p := by unfold mag; omega
  have hmq : mag q = q := by unfold mag; omega
  have hsum : 0 < mval p + mval q := by
    rcases (by omega : 0 < p ∨ 0 < q) with h | h
    · linarith [mval_pos p h, mval_nonneg q]
    · linarith [mval_pos q h, mval_nonneg p]
  unfold fadd
  dsimp only
  rw [hmp, hmq]
  rw [if_neg (by omega), if_neg (by omega), if_neg (by omega), if_neg (by omega)]
  rw [sval_small p (by omega), sval_small q (by omega)]
  rw [if_neg (Ne.symm (ne_of_lt hsum)), if_neg (by linarith)]

/-- Evaluation of the addition model on two negative finite patterns. -/
theorem fadd_neg (p q : ℕ) (hp : p < posInf) (hq : q < posInf) (hpq : 0 < p + q) :
    fadd (2 ^ 63 + p) (2 ^ 63 + q) = 2 ^ 63 + roundMag (mval p + mval q) := by
  have hpi := posInf_val
  have hmp : mag (2 ^ 63 + p) = p := by unfold mag; omega
  have hmq : mag (2 ^ 63 + q) = q := by unfold mag; omega
  have hsum : 0 < mval p + mval q := by
    rcases (by omega : 0 < p ∨ 0 < q) with h | h
    · linarith [mval_pos p h, mval_nonneg q]
    · linarith [mval_pos q h, mval_nonneg p]
  unfold fadd
  dsimp only
  rw [hmp, hmq]
  rw [if_neg (by omega), if_neg (by omega), if_neg (by omega), if_neg (by omega)]
  rw [sval_neg_pat p (by omega), sval_neg_pat q (by omega)]
  have hneg : -mval p + -mval q < 0 := by linarith
  rw [if_neg (ne_of_lt hneg), if_pos hneg, signbit_eq,
    show -(-mval p + -mval q) = mval p + mval q by ring]

theorem NextFromZero_eq (x : ℕ) : NextFromZero x =
    if fne x (NextFromZeroFP x) then NextFromZeroFP x
    else if posInf ≤ clearSign x then x
    else (x + 1) % 2 ^ 64 := rfl

theorem NextToZero_eq (x : ℕ) : NextToZero x =
    if fne (NextToZeroFP x) x then NextToZeroFP x
    else if posInf ≤ clearSign x ∨ feq x 0 then x
    else wsub x 1 := rfl

set_option maxHeartbeats 1000000 in
/-- NextFromZero on a composed pattern with magnitude at most posInf - 2
increments the magnitude by one (through either the fast or the bit path). -/
theorem NextFromZero_pat (s r : ℕ) (hs : s ≤ 1) (h1 : 1 ≤ r) (h2 : r ≤ posInf - 2) :
    NextFromZero (s * 2 ^ 63 + r) = s * 2 ^ 63 + r + 1 := by
  have hpi := posInf_val
  have hr63 : r < 2 ^ 63 := by omega
  have hm := mag_compose s r hs hr63
  have hsg := sgn_compose s r hs hr63
  have hmul : fmul (s * 2 ^ 63 + r) 0x3CA2500000000000
      = s * 2 ^ 63 + roundMag (mval r * mval 0x3CA2500000000000) := by
    rw [fmul_finite _ _ (by omega) (by decide)]
    rw [hm, hsg, show mag 0x3CA2500000000000 = 0x3CA2500000000000 from by decide,
      show sgn 0x3CA2500000000000 = 0 from by decide,
      show (s + 0) % 2 = s from by omega]
  set p1 := roundMag (mval r * mval 0x3CA2500000000000) with hp1def
  have hp1le : p1 ≤ posInf - 1 := p1_le_maxFinite r (by omega)
  have hy : NextFromZeroFP (s * 2 ^ 63 + r)
      = s * 2 ^ 63 + roundMag (mval r + mval p1) := by
    unfold NextFromZeroFP
    rw [hmul]
    rcases (by omega : s = 0 ∨ s = 1) with h0 | h0
    · subst h0
      simp only [zero_mul, zero_add]
      exact fadd_pos r p1 (by omega) (by omega) (by omega)
    · subst h0
      rw [one_mul]
      exact fadd_neg r p1 (by omega) (by omega) (by omega)
  rcases fp_up_cases r h1 h2 with hc | hc
  · rw [← hp1def] at hc
    have hfne : fne (s * 2 ^ 63 + r) (NextFromZeroFP (s * 2 ^ 63 + r)) = false := by
      rw [hy, hc]
      exact fne_self_finite _ (by rw [hm]; omega)
    rw [NextFromZero_eq]
    rw [if_neg (by simp only [hfne, Bool.false_eq_true, not_false_eq_true]),
      if_neg (show ¬ posInf ≤ clearSign (s * 2 ^ 63 + r) from by
        rw [clearSign_eq_mag, hm]
        omega)]
    omega
  · rw [← hp1def] at hc
    have hfne : fne (s * 2 ^ 63 + r) (NextFromZeroFP (s * 2 ^ 63 + r)) = true := by
      rw [hy, hc]
      rw [show s * 2 ^ 63 + (r + 1) = s * 2 ^ 63 + (r + 1) from rfl]
      exact fne_same_sign s r (r + 1) hs (by omega) (by omega) (by omega)
    rw [NextFromZero_eq]
    rw [if_pos hfne, hy, hc]
    omega

set_option maxHeartbeats 1000000 in
/-- NextToZero on a composed pattern with nonzero finite magnitude decrements
the magnitude by one (through either the fast or the bit path). -/
theorem NextToZero_pat (s m : ℕ) (hs : s ≤ 1) (h1 : 1 ≤ m) (h2 : m ≤ posInf - 1) :
    NextToZero (s * 2 ^ 63 + m) = s * 2 ^ 63 + (m - 1) := by
  have hpi := posInf_val
  have hm63 : m < 2 ^ 63 := by omega
  have hm := mag_compose s m hs hm63
  have hsg := sgn_compose s m hs hm63
  have hmul : NextToZeroFP (s * 2 ^ 63 + m)
      = s * 2 ^ 63 + roundMag (mval m * mval 0x3FEFFFFFFFFFFFFF) := by
    unfold NextToZeroFP
    rw [fmul_finite _ _ (by omega) (by decide)]
    rw [hm, hsg, show mag 0x3FEFFFFFFFFFFFFF = 0x3FEFFFFFFFFFFFFF from by decide,
      show sgn 0x3FEFFFFFFFFFFFFF = 0 from by decide,
      show (s + 0) % 2 = s from by omega]
  rcases fp_down_cases m h1 h2 with hc | hc
  · have hfne : fne (NextToZeroFP (s * 2 ^ 63 + m)) (s * 2 ^ 63 + m) = true := by
      rw [hmul, hc]
      exact fne_same_sign s (m - 1) m hs (by omega) (by omega) (by omega)
    rw [NextToZero_eq]
    rw [if_pos hfne, hmul, hc]
  · have hfne : fne (NextToZeroFP (s * 2 ^ 63 + m)) (s * 2 ^ 63 + m) = false := by
      rw [hmul, hc]
      exact fne_self_finite _ (by rw [hm]; omega)
    have hns : ¬ posInf ≤ clearSign (s * 2 ^ 63 + m) := by
      rw [clearSign_eq_mag, hm]
      omega
    have hnz : feq (s * 2 ^ 63 + m) 0 = false := feq_pat_zero s m hs h1 (by omega)
    have hcond : ¬ (posInf ≤ clearSign (s * 2 ^ 63 + m) ∨ feq (s * 2 ^ 63 + m) 0 = true) := by
      rintro (hA | hB)
      · exact hns hA
      · rw [hnz] at hB
        simp at hB
    rw [NextToZero_eq]
    rw [if_neg (by simp only [hfne, Bool.false_eq_true, not_false_eq_true]), if_neg hcond]
    unfold wsub
    omega

set_option maxHeartbeats 1000000 in
/-- NextFromZero overflows to the posInf pattern at the largest finite value:
the fast path rounds MaxFloat64 + MaxFloat64 * 0x1.25p-53 up to infinity. -/
theorem NextFromZero_maxFinite : NextFromZero 0x7FEFFFFFFFFFFFFF = posInf := by
  have hpi := posInf_val
  have hx : (0x7FEFFFFFFFFFFFFF : ℕ) = posInf - 1 := by
    rw [hpi]
  have hm : mag 0x7FEFFFFFFFFFFFFF = 0x7FEFFFFFFFFFFFFF := by decide
  have hsg : sgn 0x7FEFFFFFFFFFFFFF = 0 := by decide
  have hmul : fmul 0x7FEFFFFFFFFFFFFF 0x3CA2500000000000
      = roundMag (mval 0x7FEFFFFFFFFFFFFF * mval 0x3CA2500000000000) := by
    rw [fmul_finite _ _ (by rw [hm, hx]; omega) (by decide)]
    rw [hm, hsg, show mag 0x3CA2500000000000 = 0x3CA2500000000000 from by decide,
      show sgn 0x3CA2500000000000 = 0 from by decide]
    norm_num
  set p1 := roundMag (mval 0x7FEFFFFFFFFFFFFF * mval 0x3CA2500000000000) with hp1def
  have hp1le : p1 ≤ posInf - 1 := by
    rw [hp1def, hx]
    exact p1_le_maxFinite (posInf - 1) (by omega)
  have hp1ge : 1993 * 2 ^ 52 + 1 ≤ p1 := by
    rw [hp1def, hx]
    apply roundMag_ge _ _ (by rw [hpi]; norm_num)
    rw [q1_form (posInf - 1), intMag_maxFinite, mval_grid (1993 * 2 ^ 52 + 1),
      intMag_pattern 1993 1 (by norm_num) (by norm_num)]
    rw [grid_rescale (2 * ((1 + 2 ^ 52) * 2 ^ (1993 - 1))) 60 (-1075 : ℤ) (-1135 : ℤ)
      (by norm_num), grid_le_iff]
    norm_num
  have hJ : (1 + 2 ^ 52) * 2 ^ 1992 ≤ intMag p1 := by
    calc (1 + 2 ^ 52) * 2 ^ 1992 = intMag (1993 * 2 ^ 52 + 1) := by
          rw [intMag_pattern 1993 1 (by norm_num) (by norm_num)]
    _ ≤ intMag p1 := intMag_mono _ _ hp1ge (by
          rw [hp1def]
          exact le_trans (p1_le_maxFinite _ (by rw [hx]; omega)) (by omega))
  have hy : NextFromZeroFP 0x7FEFFFFFFFFFFFFF
      = roundMag (mval 0x7FEFFFFFFFFFFFFF + mval p1) := by
    unfold NextFromZeroFP
    rw [hmul]
    exact fadd_pos 0x7FEFFFFFFFFFFFFF p1 (by rw [hx]; omega) (by omega) (by omega)
  have hmid : ((intMag (posInf - 1) + intMag (posInf - 1 + 1) : ℕ) : ℚ)
      * (2 : ℚ) ^ (-1075 : ℤ) < mval 0x7FEFFFFFFFFFFFFF + mval p1 := by
    rw [show posInf - 1 + 1 = posInf from by omega, intMag_posInf_sum, hx,
      mval_grid (posInf - 1), mval_grid p1, grid_add, grid_lt_iff, intMag_maxFinite]
    omega
  have hge := succ_le_roundMag_of_mid_lt (posInf - 1)
    (mval 0x7FEFFFFFFFFFFFFF + mval p1) (by omega) hmid
  have hle := roundMag_le_posInf (mval 0x7FEFFFFFFFFFFFFF + mval p1)
  have hround : roundMag (mval 0x7FEFFFFFFFFFFFFF + mval p1) = posInf := by omega
  have hfne : fne 0x7FEFFFFFFFFFFFFF (NextFromZeroFP 0x7FEFFFFFFFFFFFFF) = true := by
    rw [hy, hround]
    decide
  rw [NextFromZero_eq]
  rw [if_pos hfne, hy, hround]

/-- Amended C2: navigating one step away from zero and then one step back
toward zero is the identity on patterns with nonzero magnitude strictly below
the largest finite magnitude (the original claim fails at MaxFloat64). -/
theorem c2_roundtrip (u : ℕ) (hu : u < 2 ^ 64) (h1 : 1 ≤ mag u)
    (h2 : mag u ≤ posInf - 2) :
    NextToZero (NextFromZero u) = u := by
  have hpi := posInf_val
  have hdec := u_decomp u hu
  have hs := sgn_le_one u
  have hup : NextFromZero u = sgn u * 2 ^ 63 + (mag u + 1) := by
    conv_lhs => rw [hdec]
    rw [NextFromZero_pat (sgn u) (mag u) hs h1 h2]
    omega
  rw [hup, NextToZero_pat (sgn u) (mag u + 1) hs (by omega) (by omega)]
  omega

/-- C2 counterexample: at MaxFloat64 the away-from-zero step saturates to
infinity and the back-toward-zero step stays at infinity, so the round trip
does not return (and is not even IEEE-equal to) the input. -/
theorem c2_counterexample :
    NextToZero (NextFromZero 0x7FEFFFFFFFFFFFFF) = posInf ∧
    feq (NextToZero (NextFromZero 0x7FEFFFFFFFFFFFFF)) 0x7FEFFFFFFFFFFFFF = false := by
  have h1 := NextFromZero_maxFinite
  have h2 : NextToZero posInf = posInf := by decide
  constructor
  · rw [h1, h2]
  · rw [h1, h2]
    decide

/-- Witness for the amended C2 at the pattern of 1.0. -/
theorem c2_roundtrip_witness :
    1 ≤ mag 0x3FF0000000000000 ∧ mag 0x3FF0000000000000 ≤ posInf - 2 ∧
    NextToZero (NextFromZero 0x3FF0000000000000) = 0x3FF0000000000000 :=
  ⟨by decide, by decide,
    c2_roundtrip 0x3FF0000000000000 (by decide) (by decide) (by decide)⟩

end Fbits
